import Mathlib

/-!
Verification of `fp_fetch_rankings.py` (FantasyPros projections fetcher).

Shallow embedding: pandas DataFrames become lists of cell rows with a list of
column labels; cells are strings, rational numbers, or the missing marker
`pd.NA`; Python exceptions become `Except`; the HTTP layer is modelled by an
explicit response value, and the CSV parser of the export path is a parameter
(the program only relies on it either returning a table or failing).
Machine floats are modelled by rationals; strings are modelled at the
character-list level with ASCII semantics (the program only handles ASCII
column labels, team codes and query strings).
-/

set_option autoImplicit false

namespace FpFetch

/-! ## Python string primitives (char-list level, ASCII semantics) -/

/-- `str.strip()` from one side: drop leading whitespace. -/
def dropWs (l : List Char) : List Char := l.dropWhile Char.isWhitespace

/-- `str.strip()`: drop leading and trailing whitespace. -/
def pyStripL (l : List Char) : List Char := (dropWs ((dropWs l).reverse)).reverse

def pyStrip (s : String) : String := String.mk (pyStripL s.data)

/-- `str.lower()` (ASCII). -/
def pyLower (s : String) : String := String.mk (s.data.map Char.toLower)

/-- Split a char list at every char satisfying `p` (like `str.split(sep)`,
separators not kept; empty pieces kept). Result is always non-empty. -/
def splitOnP (p : Char → Bool) : List Char → List (List Char)
  | [] => [[]]
  | c :: rest =>
    if p c then [] :: splitOnP p rest
    else
      match splitOnP p rest with
      | [] => [[c]]
      | h :: t => (c :: h) :: t

/-- `str.split()` with no argument: split on whitespace runs, no empty tokens. -/
def wsTokens (l : List Char) : List (List Char) :=
  (splitOnP Char.isWhitespace l).filter (fun t => !t.isEmpty)

/-- `str.isupper()` (ASCII): at least one cased character and no lowercase one. -/
def pyIsUpperL (l : List Char) : Bool :=
  l.any Char.isAlpha && l.all (fun c => !c.isLower)

/-- `str.splitlines()` for the line terminators `\n`, `\r\n`, `\r`. -/
def splitlinesL : List Char → List (List Char)
  | [] => []
  | '\r' :: '\n' :: rest => [] :: splitlinesL rest
  | '\n' :: rest => [] :: splitlinesL rest
  | '\r' :: rest => [] :: splitlinesL rest
  | c :: rest =>
    match splitlinesL rest with
    | [] => [[c]]
    | h :: t => (c :: h) :: t

/-- Python `needle in hay` on strings: substring test. -/
def containsSub (needle hay : List Char) : Bool :=
  hay.tails.any (fun t => needle.isPrefixOf t)

/-- `" ".join`-style join with a single separator char. -/
def joinWith (sep : Char) : List (List Char) → List Char
  | [] => []
  | [f] => f
  | f :: g :: t => f ++ sep :: joinWith sep (g :: t)

/-! ## Numbers: `float` division and rounding modelled over `ℚ` -/

/-- Round to the nearest integer, ties to even (numpy rounding). -/
def roundHalfEven (x : ℚ) : ℤ :=
  if x - ⌊x⌋ = 1/2 then (if ⌊x⌋ % 2 = 0 then ⌊x⌋ else ⌊x⌋ + 1) else round x

/-- `Series.round(2)`: round to 2 decimal places. -/
def pyRound2 (x : ℚ) : ℚ := (roundHalfEven (x * 100) : ℚ) / 100

/-- Numeral value of a digit run. -/
def digitsVal (ds : List Char) : ℕ := ds.foldl (fun a c => 10 * a + (c.toNat - 48)) 0

/-- Unsigned decimal literal `digits[.digits]` (as accepted by `pd.to_numeric`;
exponent forms and `inf`/`nan` literals are not exercised by this program). -/
def parseUnsigned (l : List Char) : Option ℚ :=
  let ip := l.takeWhile Char.isDigit
  match l.dropWhile Char.isDigit with
  | [] => if ip.isEmpty then none else some (digitsVal ip : ℚ)
  | '.' :: frac =>
    if frac.all Char.isDigit && !(ip.isEmpty && frac.isEmpty) then
      some ((digitsVal ip : ℚ) + (digitsVal frac : ℚ) / (10 ^ frac.length : ℚ))
    else none
  | _ => none

/-- Numeric parsing of a string cell, as done by `pd.to_numeric`. -/
def parsePyNumber (s : String) : Option ℚ :=
  match pyStripL s.data with
  | '+' :: rest => parseUnsigned rest
  | '-' :: rest => (parseUnsigned rest).map (fun q => -q)
  | l => parseUnsigned l

/-! ## Cells and DataFrames -/

/-- A pandas cell: a string, a (rational-modelled) number, or the missing
marker `pd.NA` (also standing for `NaN` produced by `to_numeric`). -/
inductive Cell where
  | str (s : String)
  | num (q : ℚ)
  | na
  deriving DecidableEq, Repr

/-- Python `str(cell)`: `str(pd.NA)` is the literal text `<NA>`. -/
def pyStr : Cell → String
  | .str s => s
  | .num q => toString q
  | .na => "<NA>"

/-- `pd.to_numeric(·, errors="coerce")` on one cell. -/
def toNumericCell : Cell → Cell
  | .num q => .num q
  | .na => .na
  | .str s =>
    match parsePyNumber s with
    | some q => .num q
    | none => .na

/-- A DataFrame: column labels plus rows of cells (single-level header;
this program never feeds a multi-level header through these paths). -/
structure DataFrame where
  cols : List String
  rows : List (List Cell)
  deriving DecidableEq, Repr

/-- Cell of a row at column index `i` (missing positions read as `NA`). -/
def cellAt (r : List Cell) (i : ℕ) : Cell := (r[i]?).getD .na

/-- Index of a column label (first occurrence, as with unique pandas labels). -/
def colIdx (df : DataFrame) (c : String) : Option ℕ := df.cols.findIdx? (· = c)

/-- `df[c]` as a list of cells (empty when the label is absent; every use in
the program is guarded by a membership test). -/
def getCol (df : DataFrame) (c : String) : List Cell :=
  match colIdx df c with
  | some i => df.rows.map (fun r => cellAt r i)
  | none => []

/-- `df[c] = vals`: replace the column in place, or append a new column. -/
def setCol (df : DataFrame) (c : String) (vals : List Cell) : DataFrame :=
  match colIdx df c with
  | some i => { df with rows := df.rows.zipWith (fun r v => r.set i v) vals }
  | none => { cols := df.cols ++ [c], rows := df.rows.zipWith (fun r v => r ++ [v]) vals }

/-- Cell of a row under the labelling of `df`, by column name. -/
def selCell (df : DataFrame) (r : List Cell) (c : String) : Cell :=
  match colIdx df c with
  | some i => cellAt r i
  | none => .na

/-- `df[[c₁, …, cₙ]]`: column selection (producing a fresh frame). -/
def selectCols (df : DataFrame) (cs : List String) : DataFrame :=
  { cols := cs
    rows := df.rows.map (fun r => cs.map (selCell df r)) }

/-- Map a function over one column (`df[c] = df[c].map f` shape). -/
def mapCol (df : DataFrame) (c : String) (f : Cell → Cell) : DataFrame :=
  setCol df c ((getCol df c).map f)

/-! ## The program: `fp_fetch_rankings.py` -/

/-- `clean_columns` (line 72): lower-case and strip every column label.
The multi-index flattening branch is not exercised by single-level frames. -/
def clean_columns (df : DataFrame) : DataFrame :=
  { df with cols := df.cols.map (fun c => pyLower (pyStrip c)) }

/-- The alias set used by `locate_projection_table` (line 86). -/
def fptsSelectorAliases : List String :=
  ["fpts", "fantasy pts", "fantasypts", "points", "misc fpts"]

/-- The alias priority list used by `extract_player_team_fpts` (line 152). -/
def fptsExtractAliases : List String :=
  ["fpts", "fantasy pts", "fantasypts", "points", "total fpts"]

/-- `locate_projection_table` (line 81): first table, in order, whose cleaned
columns contain `player` and some fpts alias; returns the cleaned copy. -/
def locate_projection_table (tables : List DataFrame) : Option DataFrame :=
  tables.findSome? (fun t =>
    let df := clean_columns t
    if "player" ∈ df.cols ∧ fptsSelectorAliases.any (fun a => decide (a ∈ df.cols)) then
      some df
    else none)

/-- The inner `extract_player_team` helper (line 134): split a player cell on
whitespace; if there are at least two tokens and the last has length ≤ 4 and
`isupper()`, it is the team and the player is the rest rejoined; otherwise the
cell is returned unchanged with team `pd.NA`. -/
def extract_player_team (c : Cell) : Cell × Cell :=
  let parts := wsTokens (pyStripL (pyStr c).data)
  if 2 ≤ parts.length then
    let pt := (parts.getLast?).getD []
    if pt.length ≤ 4 ∧ pyIsUpperL pt then
      (.str (String.mk (joinWith ' ' parts.dropLast)), .str (String.mk pt))
    else (c, .na)
  else (c, .na)

/-- Errors raised by `extract_player_team_fpts` (`ValueError`s at 123, 157). -/
inductive ExtractErr where
  | missingPlayer
  | missingFpts
  deriving DecidableEq, Repr

/-- Lines 117-123: ensure a `player` column (falling back to `name`). -/
def resolve_player (df1 : DataFrame) : Except ExtractErr DataFrame :=
  if "player" ∈ df1.cols then .ok df1
  else if "name" ∈ df1.cols then .ok (setCol df1 "player" (getCol df1 "name"))
  else .error .missingPlayer

/-- Lines 125-148: resolve the team column, or run the splitting heuristic. -/
def resolve_team (df2 : DataFrame) : DataFrame :=
  let team_col : Option String :=
    if "team" ∈ df2.cols then some "team"
    else if "tm" ∈ df2.cols then some "tm"
    else none
  match team_col with
  | none =>
    let extracted := (getCol df2 "player").map extract_player_team
    setCol (setCol df2 "player" (extracted.map Prod.fst)) "team"
      (extracted.map Prod.snd)
  | some tc => setCol df2 "team" (getCol df2 tc)

/-- Lines 159-168: build `out` — select/rename, coerce types, drop bad rows. -/
def build_out (df3 : DataFrame) (fc : String) : DataFrame :=
  let out0 := selectCols df3 ["player", "team", fc]
  -- `out.rename(columns={fpts_col: "fpts"})`: fc sits at position 2
  let out1 : DataFrame := { out0 with cols := ["player", "team", "fpts"] }
  let out2 := mapCol out1 "player" (fun c => .str (pyStrip (pyStr c)))
  let out3 := mapCol out2 "team" (fun c => .str (pyStrip (pyStr c)))
  let out4 := mapCol out3 "fpts" toNumericCell
  -- `out[(out["player"] != "") & out["fpts"].notna()]`
  { out4 with
    rows := out4.rows.filter (fun r =>
      cellAt r 0 != Cell.str "" && cellAt r 2 != Cell.na) }

/-- `extract_player_team_fpts` (line 110). Python mutates the frame passed in
(`clean_columns` reassigns its labels, and the `player`/`team` assignments hit
the same object), so the embedding returns both the post-call state of the
input object and the fresh output frame `out`. -/
def extract_player_team_fpts (df0 : DataFrame) :
    Except ExtractErr (DataFrame × DataFrame) :=
  match resolve_player (clean_columns df0) with
  | .error e => .error e
  | .ok df2 =>
    match fptsExtractAliases.find? (fun a => decide (a ∈ (resolve_team df2).cols)) with
    | none => .error .missingFpts
    | some fc => .ok (resolve_team df2, build_out (resolve_team df2) fc)

/-- The composite per-row coercion performed by `build_out` (name used to
state its row-level characterization): trimmed text for player and team,
numeric coercion for the fpts cell. -/
def coerceTriple (df3 : DataFrame) (fc : String) (r : List Cell) : List Cell :=
  [ .str (pyStrip (pyStr (selCell df3 r "player"))),
    .str (pyStrip (pyStr (selCell df3 r "team"))),
    toNumericCell (selCell df3 r fc) ]

/-- An HTTP response as seen by `try_fetch_csv`. -/
structure HttpResponse where
  status : ℕ
  body : String

/-- The uncaught exception `try_fetch_csv` can raise. -/
inductive FetchRaise where
  | indexError
  deriving DecidableEq, Repr

/-- `try_fetch_csv` (line 50), after the HTTP GET: non-200 gives `none`; a
first line without `Player` gives `none`; a CSV parse failure is caught and
gives `none`; otherwise the parsed frame. The `pd.read_csv` parser is a
parameter. Note `text.splitlines()[0]` raises `IndexError` when the stripped
body has no lines. -/
def try_fetch_csv (read_csv : String → Except Unit DataFrame)
    (resp : HttpResponse) : Except FetchRaise (Option DataFrame) :=
  if resp.status ≠ 200 then .ok none
  else
    let text := pyStrip resp.body
    match splitlinesL text.data with
    | [] => .error .indexError
    | first :: _ =>
      if containsSub "Player".data first then
        match read_csv text with
        | .ok df => .ok (some df)
        | .error _ => .ok none
      else .ok none

/-- Attempt-level errors inside `fetch_position` (line 179-191). -/
inductive AttemptErr where
  | noData
  | extractFailed (e : ExtractErr)
  deriving DecidableEq, Repr

/-- `c / float(weeks)` then `.round(2)` on one fpts cell. -/
def divRoundCell (weeks : ℚ) : Cell → Cell
  | .num q => .num (pyRound2 (q / weeks))
  | _ => .na

/-- Lines 189-191: per-game rate column, position tag, column selection. -/
def add_rate_and_pos (weeks : ℚ) (pos : String) (base : DataFrame) : DataFrame :=
  let base1 := setCol base "proj_pts" ((getCol base "fpts").map (divRoundCell weeks))
  let base2 := setCol base1 "pos" (base1.rows.map (fun _ => Cell.str pos))
  selectCols base2 ["player", "team", "proj_pts", "pos"]

/-- The body of one `fetch_position` attempt (lines 181-191), starting from
the fetched frame (`none` models both fetch paths returning `None`):
raise on no/empty data, extract, convert to per-game rate, tag the position,
and keep only the four output columns. -/
def attempt_body (weeks : ℚ) (pos : String) (fetched : Option DataFrame) :
    Except AttemptErr DataFrame :=
  match fetched with
  | none => .error .noData
  | some df =>
    if df.rows.isEmpty || df.cols.isEmpty then .error .noData
    else
      match extract_player_team_fpts df with
      | .error e => .error (.extractFailed e)
      | .ok (_, base) => .ok (add_rate_and_pos weeks pos base)

/-- The retry loop of `fetch_position` (lines 177-199), abstracted over the
per-attempt outcome (the network is nondeterministic across attempts).
Returns the final result together with the list of back-off sleeps taken. -/
def fetch_position_from {α : Type} (attempts : ℕ → Except String α)
    (retries : ℕ) (backoff : ℚ) (pos url : String) (i : ℕ) :
    Except String α × List ℚ :=
  match attempts i with
  | .ok v => (.ok v, [])
  | .error e =>
    if _h : i < retries then
      let r := fetch_position_from attempts retries backoff pos url (i + 1)
      (r.1, backoff ^ i :: r.2)
    else
      (.error ("Failed to fetch " ++ pos ++ " from " ++ url ++ ": " ++ e), [])
  termination_by retries - i
  decreasing_by omega

/-- `fetch_position` (line 172): run attempts `0 … retries`. -/
def fetch_position {α : Type} (attempts : ℕ → Except String α)
    (retries : ℕ) (backoff : ℚ) (pos url : String) : Except String α × List ℚ :=
  fetch_position_from attempts retries backoff pos url 0

/-- `pd.concat(frames, ignore_index=True)` for identically-labelled frames
(every frame reaching line 225 has the four pipeline columns). -/
def pdConcat (frames : List DataFrame) : DataFrame :=
  { cols := (frames.head?.map (·.cols)).getD []
    rows := frames.flatMap (·.rows) }

/-- `df[df[c].isin(vals)]` (column always present at the one use site). -/
def filterIsin (df : DataFrame) (c : String) (vals : List Cell) : DataFrame :=
  match colIdx df c with
  | some i => { df with rows := df.rows.filter (fun r => decide (cellAt r i ∈ vals)) }
  | none => df

/-- The aggregation tail of `main` (lines 225-232): concatenate the per-position
frames in configured order, keep only the four expected position labels,
reorder columns, and re-coerce `proj_pts`. -/
def main_aggregate (frames : List DataFrame) : DataFrame :=
  let df_all := pdConcat frames
  let df2 := filterIsin df_all "pos"
    [Cell.str "QB", Cell.str "RB", Cell.str "WR", Cell.str "TE"]
  let df3 := selectCols df2 ["player", "team", "proj_pts", "pos"]
  mapCol df3 "proj_pts" toNumericCell

/-! ## Query-string machinery for `add_or_update_query` (line 41)

`urllib.parse` modelled at the character level, single-byte (ASCII-faithful):
`quote_plus`/`unquote_plus` percent-encoding, `parse_qsl` with
`keep_blank_values=True`, `urlencode` with string values, and Python's
insertion-ordered dict. -/

/-- Hex digit test, as accepted by `unquote`. -/
def isHexDigitCh (c : Char) : Bool :=
  (48 ≤ c.toNat && c.toNat ≤ 57) || (65 ≤ c.toNat && c.toNat ≤ 70) ||
    (97 ≤ c.toNat && c.toNat ≤ 102)

/-- Value of a hex digit. -/
def hexVal (c : Char) : ℕ :=
  if 48 ≤ c.toNat ∧ c.toNat ≤ 57 then c.toNat - 48
  else if 65 ≤ c.toNat ∧ c.toNat ≤ 70 then c.toNat - 55
  else if 97 ≤ c.toNat ∧ c.toNat ≤ 102 then c.toNat - 87
  else 0

/-- Upper-case hex digit of a value < 16 (as `quote` emits). -/
def hexDigitUpper (n : ℕ) : Char :=
  if n < 10 then Char.ofNat (48 + n) else Char.ofNat (55 + n)

/-- The always-safe characters of `urllib.parse.quote` (with `safe=""`). -/
def isSafeChar (c : Char) : Bool :=
  c.isAlphanum || c = '_' || c = '.' || c = '-' || c = '~'

/-- One character under `quote_plus`: space to `+`, safe kept, rest `%XX`. -/
def encodeChar (c : Char) : List Char :=
  if c = ' ' then ['+']
  else if isSafeChar c then [c]
  else ['%', hexDigitUpper (c.toNat / 16 % 16), hexDigitUpper (c.toNat % 16)]

/-- `urllib.parse.quote_plus` (single-byte model, faithful for ASCII input). -/
def quote_plus (l : List Char) : List Char := l.flatMap encodeChar

/-- `urllib.parse.unquote_plus`: `+` to space, valid `%XX` decoded, invalid
percent sequences kept verbatim. -/
def unquote_plus : List Char → List Char
  | [] => []
  | c :: rest =>
    if c = '+' then ' ' :: unquote_plus rest
    else if c = '%' then
      match hr : rest with
      | a :: b :: rest2 =>
        if isHexDigitCh a && isHexDigitCh b then
          Char.ofNat (16 * hexVal a + hexVal b) :: unquote_plus rest2
        else c :: unquote_plus rest
      | _ => c :: unquote_plus rest
    else c :: unquote_plus rest
  termination_by l => l.length
  decreasing_by all_goals (simp_all <;> omega)

/-- `field.split("=", 1)` as used by `parse_qsl`. -/
def splitFirstEq : List Char → Option (List Char × List Char)
  | [] => none
  | c :: rest =>
    if c = '=' then some ([], rest)
    else (splitFirstEq rest).map (fun p => (c :: p.1, p.2))

/-- `urllib.parse.parse_qsl(qs, keep_blank_values=True)`: split on `&`,
skip empty fields, a field without `=` keeps a blank value, both halves
unquoted. -/
def parse_qsl (qs : List Char) : List (List Char × List Char) :=
  (splitOnP (fun c => c == '&') qs).filterMap (fun f =>
    if f.isEmpty then none
    else
      match splitFirstEq f with
      | some p => some (unquote_plus p.1, unquote_plus p.2)
      | none => some (unquote_plus f, unquote_plus []))

/-- Python dict assignment `d[k] = v` over an insertion-ordered assoc list:
an existing key keeps its position, a new key is appended. -/
def dinsert {K V : Type} [DecidableEq K] (m : List (K × V)) (k : K) (v : V) :
    List (K × V) :=
  if k ∈ m.map Prod.fst then m.map (fun p => if p.1 = k then (k, v) else p)
  else m ++ [(k, v)]

/-- `d.update(ps)` / building a dict by repeated assignment. -/
def dupdate {K V : Type} [DecidableEq K] (m ps : List (K × V)) : List (K × V) :=
  ps.foldl (fun acc p => dinsert acc p.1 p.2) m

/-- `dict(pairs)`: later duplicates overwrite earlier ones. -/
def dictOf {K V : Type} [DecidableEq K] (l : List (K × V)) : List (K × V) :=
  dupdate [] l

/-- Python dict lookup (first — and for our dicts only — binding of a key). -/
def dlookup {K V : Type} [DecidableEq K] : List (K × V) → K → Option V
  | [], _ => none
  | p :: m, k => if p.1 = k then some p.2 else dlookup m k

/-- `urllib.parse.urlencode(q, doseq=True)` over string-valued pairs. -/
def urlencode (m : List (List Char × List Char)) : List Char :=
  joinWith '&' (m.map (fun p => quote_plus p.1 ++ '=' :: quote_plus p.2))

/-- The six components of `urlparse`, re-assembled by `urlunparse`. -/
structure UrlParts where
  scheme : List Char
  netloc : List Char
  path : List Char
  params : List Char
  query : List Char
  fragment : List Char
  deriving DecidableEq, Repr

/-- `add_or_update_query` (line 41): parse the existing query into a dict
(later duplicates overwriting), merge the given params over it, re-encode;
scheme, netloc, path, params and fragment pass through unchanged. -/
def add_or_update_query (u : UrlParts) (ps : List (List Char × List Char)) :
    UrlParts :=
  { u with query := urlencode (dupdate (dictOf (parse_qsl u.query)) ps) }

/-! ## Generic frame lemmas -/

@[simp] theorem cellAt_cons_zero (c : Cell) (r : List Cell) : cellAt (c :: r) 0 = c := by
  simp [cellAt]

@[simp] theorem cellAt_cons_succ (c : Cell) (r : List Cell) (i : ℕ) :
    cellAt (c :: r) (i + 1) = cellAt r i := by
  simp [cellAt]

theorem colIdx_eq_none_iff (df : DataFrame) (c : String) :
    colIdx df c = none ↔ c ∉ df.cols := by
  unfold colIdx
  rw [List.findIdx?_eq_none_iff]
  constructor
  · intro h hc
    have := h c hc
    simp at this
  · intro h x hx
    simp only [decide_eq_false_iff_not]
    intro heq
    exact h (heq ▸ hx)

theorem mapCol_eq (df : DataFrame) (c : String) (f : Cell → Cell) (i : ℕ)
    (h : colIdx df c = some i) :
    mapCol df c f = { df with rows := df.rows.map (fun r => r.set i (f (cellAt r i))) } := by
  simp only [mapCol, getCol, setCol, h, List.map_map]
  congr 1
  rw [List.zipWith_map_right, List.zipWith_same]
  simp [Function.comp]

theorem setCol_append_eq (df : DataFrame) (c : String) (f : List Cell → Cell)
    (h : colIdx df c = none) :
    setCol df c (df.rows.map f) =
      { cols := df.cols ++ [c], rows := df.rows.map (fun r => r ++ [f r]) } := by
  simp only [setCol, h]
  congr 1
  rw [List.zipWith_map_right, List.zipWith_same]

theorem toNumericCell_ne_str (c : Cell) (s : String) : toNumericCell c ≠ .str s := by
  cases c <;> simp [toNumericCell]
  split <;> simp

theorem mapCol_lit3_player (rows : List (List Cell)) (f : Cell → Cell) :
    mapCol ⟨["player", "team", "fpts"], rows⟩ "player" f =
      ⟨["player", "team", "fpts"], rows.map (fun r => r.set 0 (f (cellAt r 0)))⟩ :=
  mapCol_eq _ _ _ 0 rfl

theorem mapCol_lit3_team (rows : List (List Cell)) (f : Cell → Cell) :
    mapCol ⟨["player", "team", "fpts"], rows⟩ "team" f =
      ⟨["player", "team", "fpts"], rows.map (fun r => r.set 1 (f (cellAt r 1)))⟩ :=
  mapCol_eq _ _ _ 1 rfl

theorem mapCol_lit3_fpts (rows : List (List Cell)) (f : Cell → Cell) :
    mapCol ⟨["player", "team", "fpts"], rows⟩ "fpts" f =
      ⟨["player", "team", "fpts"], rows.map (fun r => r.set 2 (f (cellAt r 2)))⟩ :=
  mapCol_eq _ _ _ 2 rfl

/-- Row-level characterization of `build_out`. -/
theorem build_out_eq (df3 : DataFrame) (fc : String) :
    build_out df3 fc =
      { cols := ["player", "team", "fpts"],
        rows := (df3.rows.map (coerceTriple df3 fc)).filter
          (fun r => cellAt r 0 != Cell.str "" && cellAt r 2 != Cell.na) } := by
  simp only [build_out, selectCols]
  rw [mapCol_lit3_player, mapCol_lit3_team, mapCol_lit3_fpts]
  simp only [List.map_map]
  rfl

/-- Every row surviving `build_out` is a trimmed-player/trimmed-team/numeric
triple with non-empty player. -/
theorem build_out_row_shape (df3 : DataFrame) (fc : String) (r : List Cell)
    (hr : r ∈ (build_out df3 fc).rows) :
    ∃ p t q, r = [Cell.str p, Cell.str t, Cell.num q] ∧ p ≠ "" := by
  rw [build_out_eq] at hr
  obtain ⟨hmem, hpred⟩ := List.mem_filter.mp hr
  obtain ⟨r0, _, rfl⟩ := List.mem_map.mp hmem
  simp only [coerceTriple, cellAt_cons_zero, cellAt_cons_succ, Bool.and_eq_true,
    bne_iff_ne, ne_eq] at hpred
  obtain ⟨hp, hq⟩ := hpred
  rcases hc : toNumericCell (selCell df3 r0 fc) with s | q | _
  · exact absurd hc (toNumericCell_ne_str _ _)
  · refine ⟨pyStrip (pyStr (selCell df3 r0 "player")),
      pyStrip (pyStr (selCell df3 r0 "team")), q, ?_, ?_⟩
    · simp only [coerceTriple]
      rw [hc]
    · intro h
      exact hp (by rw [h])
  · exact absurd hc hq

/-- Successful runs of the extractor factor through the three stages. -/
theorem extract_ok_elim (df0 st out : DataFrame)
    (h : extract_player_team_fpts df0 = .ok (st, out)) :
    ∃ df2 fc, resolve_player (clean_columns df0) = .ok df2 ∧ st = resolve_team df2 ∧
      fptsExtractAliases.find? (fun a => decide (a ∈ st.cols)) = some fc ∧
      out = build_out st fc := by
  unfold extract_player_team_fpts at h
  split at h
  · exact absurd h (by simp)
  next df2 heq =>
    split at h
    · exact absurd h (by simp)
    next fc hf =>
      simp only [Except.ok.injEq, Prod.mk.injEq] at h
      obtain ⟨h1, h2⟩ := h
      subst h1
      exact ⟨df2, fc, heq, rfl, hf, h2.symm⟩

/-- Step 1 of `add_rate_and_pos` on the literal extractor schema. -/
theorem add_rate_step1 (weeks : ℚ) (rows : List (List Cell)) :
    setCol ⟨["player", "team", "fpts"], rows⟩ "proj_pts"
        ((getCol ⟨["player", "team", "fpts"], rows⟩ "fpts").map (divRoundCell weeks)) =
      ⟨["player", "team", "fpts", "proj_pts"],
       rows.map (fun r => r ++ [divRoundCell weeks (cellAt r 2)])⟩ := by
  have hg : getCol (⟨["player", "team", "fpts"], rows⟩ : DataFrame) "fpts" =
      rows.map (fun r => cellAt r 2) := rfl
  rw [hg, List.map_map]
  have := setCol_append_eq ⟨["player", "team", "fpts"], rows⟩ "proj_pts"
    (fun r => divRoundCell weeks (cellAt r 2)) (by rw [colIdx_eq_none_iff]; simp)
  simpa [Function.comp] using this

/-- Step 2 of `add_rate_and_pos`: appending the position column. -/
theorem add_rate_step2 (pos : String) (rows1 : List (List Cell)) :
    setCol ⟨["player", "team", "fpts", "proj_pts"], rows1⟩ "pos"
        (rows1.map (fun _ => Cell.str pos)) =
      ⟨["player", "team", "fpts", "proj_pts", "pos"],
       rows1.map (fun r => r ++ [Cell.str pos])⟩ := by
  have := setCol_append_eq ⟨["player", "team", "fpts", "proj_pts"], rows1⟩ "pos"
    (fun _ => Cell.str pos) (by rw [colIdx_eq_none_iff]; simp)
  simpa using this

/-- `add_rate_and_pos` on the literal extractor schema, row by row. -/
theorem add_rate_and_pos_eq (weeks : ℚ) (pos : String) (rows : List (List Cell))
    (hrows : ∀ r ∈ rows, r.length = 3) :
    add_rate_and_pos weeks pos ⟨["player", "team", "fpts"], rows⟩ =
      ⟨["player", "team", "proj_pts", "pos"],
       rows.map (fun r =>
         [cellAt r 0, cellAt r 1, divRoundCell weeks (cellAt r 2), Cell.str pos])⟩ := by
  simp only [add_rate_and_pos]
  rw [add_rate_step1, add_rate_step2, List.map_map]
  have hsel : selectCols
      ⟨["player", "team", "fpts", "proj_pts", "pos"],
        rows.map ((fun r => r ++ [Cell.str pos]) ∘
          (fun r => r ++ [divRoundCell weeks (cellAt r 2)]))⟩
      ["player", "team", "proj_pts", "pos"] =
      ⟨["player", "team", "proj_pts", "pos"],
        (rows.map ((fun r => r ++ [Cell.str pos]) ∘
          (fun r => r ++ [divRoundCell weeks (cellAt r 2)]))).map
          (fun r => [cellAt r 0, cellAt r 1, cellAt r 3, cellAt r 4])⟩ := rfl
  rw [hsel, List.map_map]
  congr 1
  refine List.map_congr_left (fun r hr => ?_)
  obtain ⟨a, b, c, rfl⟩ := List.length_eq_three.mp (hrows r hr)
  simp [Function.comp, cellAt]

/-- A successful attempt of `fetch_position` is the extractor output with the
rate conversion applied per row and the position label appended. -/
theorem attempt_body_ok_elim (weeks : ℚ) (pos : String) (df res : DataFrame)
    (h : attempt_body weeks pos (some df) = .ok res) :
    ∃ st out, extract_player_team_fpts df = .ok (st, out) ∧
      res.cols = ["player", "team", "proj_pts", "pos"] ∧
      res.rows = out.rows.map
        (fun r => [cellAt r 0, cellAt r 1, divRoundCell weeks (cellAt r 2), Cell.str pos]) := by
  simp only [attempt_body] at h
  split at h
  · exact absurd h (by simp)
  · split at h
    · exact absurd h (by simp)
    next fst base hex =>
      simp only [Except.ok.injEq] at h
      refine ⟨fst, base, hex, ?_⟩
      obtain ⟨_, fc, _, _, _, hout⟩ := extract_ok_elim df fst base hex
      have hshape : ∀ r ∈ base.rows, r.length = 3 := by
        intro r hr
        rw [hout] at hr
        obtain ⟨p, t, q, rfl, _⟩ := build_out_row_shape fst fc r hr
        rfl
      have houtmk : base = ⟨["player", "team", "fpts"], base.rows⟩ := by
        rw [hout, build_out_eq]
      rw [houtmk, add_rate_and_pos_eq weeks pos base.rows hshape] at h
      rw [← h]
      exact ⟨rfl, rfl⟩

/-! ## Claim C1 -/

/-- C1 counterexample: a negative season total yields a retained output row
with a negative `proj_pts` (-17 points over 17 games gives -1.0); the code
only drops rows with an empty player or missing points, and never checks
non-negativity. -/
theorem negative_points_row_retained :
    attempt_body 17 "QB" (some ⟨["player", "team", "fpts"],
        [[Cell.str "Joe", Cell.str "NE", Cell.num (-17)]]⟩) =
      .ok ⟨["player", "team", "proj_pts", "pos"],
        [[Cell.str "Joe", Cell.str "NE", Cell.num (-1), Cell.str "QB"]]⟩ ∧
    ((-1 : ℚ) < 0) := by
  have h : pyRound2 ((-17 : ℚ) / 17) = -1 := by
    norm_num [pyRound2, roundHalfEven, round_eq]
  refine ⟨?_, by norm_num⟩
  show Except.ok (⟨["player", "team", "proj_pts", "pos"],
    [[Cell.str "Joe", Cell.str "NE", Cell.num (pyRound2 ((-17 : ℚ) / 17)),
      Cell.str "QB"]]⟩ : DataFrame) = _
  rw [h]

/-- C1 (amended): every row retained through field extraction and rate
conversion has a non-empty player string and a present numeric `proj_pts`
value — rows with an empty player or missing points are dropped — but the
value is not guaranteed non-negative. -/
theorem attempt_rows_player_nonempty_points_present :
    ∀ (weeks : ℚ) (pos : String) (fetched : Option DataFrame) (res : DataFrame),
      attempt_body weeks pos fetched = .ok res →
      ∀ r ∈ res.rows,
        ∃ p t q, r = [Cell.str p, Cell.str t, Cell.num q, Cell.str pos] ∧ p ≠ "" := by
  intro weeks pos fetched res h r hr
  match fetched with
  | none => simp [attempt_body] at h
  | some df =>
    obtain ⟨st, out, hex, hcols, hrows⟩ := attempt_body_ok_elim weeks pos df res h
    rw [hrows] at hr
    obtain ⟨r0, hr0, rfl⟩ := List.mem_map.mp hr
    obtain ⟨_, fc, _, _, _, hout⟩ := extract_ok_elim df st out hex
    rw [hout] at hr0
    obtain ⟨p, t, q, rfl, hp⟩ := build_out_row_shape st fc r0 hr0
    exact ⟨p, t, pyRound2 (q / weeks), by simp [divRoundCell], hp⟩

theorem attempt_rows_player_nonempty_points_present_witness :
    ∃ p t q, [Cell.str "Josh Allen", Cell.str "BUF", Cell.num 20, Cell.str "QB"] =
      [Cell.str p, Cell.str t, Cell.num q, Cell.str "QB"] ∧ p ≠ "" := by
  have h20 : pyRound2 ((340 : ℚ) / 17) = 20 := by
    norm_num [pyRound2, roundHalfEven, round_eq]
  have hw := attempt_rows_player_nonempty_points_present 17 "QB"
    (some ⟨["player", "team", "fpts"],
      [[Cell.str "Josh Allen", Cell.str "BUF", Cell.num 340]]⟩)
    ⟨["player", "team", "proj_pts", "pos"],
      [[Cell.str "Josh Allen", Cell.str "BUF", Cell.num (pyRound2 ((340 : ℚ) / 17)),
        Cell.str "QB"]]⟩
    rfl
    [Cell.str "Josh Allen", Cell.str "BUF", Cell.num (pyRound2 ((340 : ℚ) / 17)),
      Cell.str "QB"]
    (List.mem_singleton_self _)
  rw [h20] at hw
  exact hw

/-! ## Claim C3 -/

/-- C3 counterexample: on a success response whose body has no lines at all,
`try_fetch_csv` raises (the `text.splitlines()[0]` IndexError) instead of
returning NotFound. -/
theorem try_fetch_csv_raises_on_empty_body :
    try_fetch_csv (fun _ => .ok ⟨["Player"], []⟩) ⟨200, ""⟩ = .error .indexError := by
  rfl

/-- C3 (amended): `try_fetch_csv` returns NotFound (None) rather than raising
whenever the status is not success, or the (non-empty) body's first line does
not contain "Player", or parsing fails; it returns the parsed table otherwise;
however a success response whose stripped body has no first line raises an
IndexError. -/
theorem try_fetch_csv_spec :
    ∀ (read_csv : String → Except Unit DataFrame) (resp : HttpResponse),
      (resp.status ≠ 200 → try_fetch_csv read_csv resp = .ok none) ∧
      (resp.status = 200 →
        splitlinesL (pyStrip resp.body).data = [] →
        try_fetch_csv read_csv resp = .error .indexError) ∧
      (∀ first rest, resp.status = 200 →
        splitlinesL (pyStrip resp.body).data = first :: rest →
        (containsSub "Player".data first = false →
          try_fetch_csv read_csv resp = .ok none) ∧
        (containsSub "Player".data first = true →
          (∀ e, read_csv (pyStrip resp.body) = .error e →
            try_fetch_csv read_csv resp = .ok none) ∧
          (∀ df, read_csv (pyStrip resp.body) = .ok df →
            try_fetch_csv read_csv resp = .ok (some df)))) := by
  intro rc resp
  refine ⟨?_, ?_, ?_⟩
  · intro hs
    simp [try_fetch_csv, hs]
  · intro hs hl
    simp [try_fetch_csv, hs, hl]
  · intro first rest hs hl
    refine ⟨?_, ?_⟩
    · intro hc
      simp [try_fetch_csv, hs, hl, hc]
    · intro hc
      refine ⟨?_, ?_⟩
      · intro e he
        simp [try_fetch_csv, hs, hl, hc, he]
      · intro df hdf
        simp [try_fetch_csv, hs, hl, hc, hdf]

theorem try_fetch_csv_spec_witness :
    try_fetch_csv (fun _ => .ok ⟨["Player"], []⟩) ⟨404, "Player,Team"⟩ = .ok none :=
  (try_fetch_csv_spec (fun _ => .ok ⟨["Player"], []⟩) ⟨404, "Player,Team"⟩).1 (by decide)

/-! ## Claim C9 -/

/-- C9: selector acceptance does not guarantee extraction success — a table
whose only points column is `misc fpts` (an alias the selector accepts but the
extractor omits) is returned by `locate_projection_table`, yet
`extract_player_team_fpts` fails on it with the missing-fpts error. -/
theorem selector_extractor_alias_mismatch :
    locate_projection_table
        [⟨["player", "misc fpts"], [[Cell.str "Lamar Jackson BAL", Cell.num 300]]⟩] =
      some ⟨["player", "misc fpts"], [[Cell.str "Lamar Jackson BAL", Cell.num 300]]⟩ ∧
    extract_player_team_fpts
        ⟨["player", "misc fpts"], [[Cell.str "Lamar Jackson BAL", Cell.num 300]]⟩ =
      .error .missingFpts ∧
    "misc fpts" ∈ fptsSelectorAliases ∧ "misc fpts" ∉ fptsExtractAliases := by
  refine ⟨by rfl, by rfl, by decide, by decide⟩

/-! ## Claim C4 -/

/-- Success case of the retry loop, from an arbitrary start index. -/
theorem fetch_from_ok {α : Type} (attempts : ℕ → Except String α) (retries : ℕ)
    (backoff : ℚ) (pos url : String) :
    ∀ (d k : ℕ) (v : α), k + d ≤ retries → attempts (k + d) = .ok v →
      (∀ j, k ≤ j → j < k + d → ∃ e, attempts j = .error e) →
      fetch_position_from attempts retries backoff pos url k =
        (.ok v, (List.range' k d).map (backoff ^ ·)) := by
  intro d
  induction d with
  | zero =>
    intro k v _ hok _
    rw [Nat.add_zero] at hok
    unfold fetch_position_from
    rw [hok]
    rfl
  | succ d ih =>
    intro k v hle hok hfail
    obtain ⟨e, he⟩ := hfail k le_rfl (by omega)
    unfold fetch_position_from
    rw [he]
    simp only [dif_pos (show k < retries by omega)]
    have hrec := ih (k + 1) v (by omega) (by rw [show k + 1 + d = k + (d + 1) by omega]; exact hok)
      (fun j hj1 hj2 => hfail j (by omega) (by omega))
    rw [hrec]
    simp [List.range']

/-- Exhaustion case of the retry loop, from an arbitrary start index. -/
theorem fetch_from_err {α : Type} (attempts : ℕ → Except String α) (retries : ℕ)
    (backoff : ℚ) (pos url : String) :
    ∀ (d k : ℕ), k + d = retries →
      (∀ j, k ≤ j → j < retries → ∃ e, attempts j = .error e) →
      ∀ elast, attempts retries = .error elast →
      fetch_position_from attempts retries backoff pos url k =
        (.error ("Failed to fetch " ++ pos ++ " from " ++ url ++ ": " ++ elast),
         (List.range' k d).map (backoff ^ ·)) := by
  intro d
  induction d with
  | zero =>
    intro k hk _ elast hlast
    have hkr : k = retries := by omega
    subst hkr
    unfold fetch_position_from
    rw [hlast]
    simp
  | succ d ih =>
    intro k hk hfail elast hlast
    obtain ⟨e, he⟩ := hfail k le_rfl (by omega)
    unfold fetch_position_from
    rw [he]
    simp only [dif_pos (show k < retries by omega)]
    have hrec := ih (k + 1) (by omega) (fun j hj1 hj2 => hfail j (by omega) hj2) elast hlast
    rw [hrec]
    simp [List.range']

/-- C4: among attempts `0 … retries`, the first success is returned as is,
with one back-off sleep of `backoff ^ j` after each failed attempt `j` before
it; if every attempt raises, the loop raises a single wrapped failure whose
message names the position and the URL and carries the last error. -/
theorem fetch_position_retry_spec {α : Type} (attempts : ℕ → Except String α)
    (retries : ℕ) (backoff : ℚ) (pos url : String) :
    (∀ i v, i ≤ retries → attempts i = .ok v →
      (∀ j, j < i → ∃ e, attempts j = .error e) →
      fetch_position attempts retries backoff pos url =
        (.ok v, (List.range i).map (backoff ^ ·))) ∧
    (∀ elast, attempts retries = .error elast →
      (∀ j, j < retries → ∃ e, attempts j = .error e) →
      fetch_position attempts retries backoff pos url =
        (.error ("Failed to fetch " ++ pos ++ " from " ++ url ++ ": " ++ elast),
         (List.range retries).map (backoff ^ ·))) := by
  constructor
  · intro i v hle hok hfail
    rw [List.range_eq_range']
    exact fetch_from_ok attempts retries backoff pos url i 0 v (by omega)
      (by rwa [Nat.zero_add]) (fun j _ hj => hfail j (by omega))
  · intro elast hlast hfail
    rw [List.range_eq_range']
    exact fetch_from_err attempts retries backoff pos url retries 0 (by omega)
      (fun j _ hj => hfail j hj) elast hlast

theorem fetch_position_retry_spec_witness :
    fetch_position (fun i => if i < 2 then .error "boom" else .ok (0 : ℕ))
        2 (3/2) "QB" "u" = (.ok 0, [1, 3/2]) := by
  have h := (fetch_position_retry_spec
      (fun i => if i < 2 then .error "boom" else .ok (0 : ℕ)) 2 (3/2) "QB" "u").1
    2 0 (by omega) (by norm_num) (fun j hj => ⟨"boom", by simp [hj]⟩)
  rw [h]
  norm_num [show List.range 2 = [0, 1] from rfl]

/-! ## Claim C6 -/

/-- C6: under the caller-enforced precondition `games_in_season > 0`, every
successful attempt computes `proj_pts = round(fpts / games_in_season, 2)` per
row of the extractor output; in particular 340 season points over 17 games
give 20.0 and 255 over 17 give 15.0. -/
theorem convert_rate_spec :
    (∀ (weeks : ℚ) (pos : String) (df res : DataFrame), 0 < weeks →
      attempt_body weeks pos (some df) = .ok res →
      ∃ st out, extract_player_team_fpts df = .ok (st, out) ∧
        res.rows = out.rows.map (fun r =>
          [cellAt r 0, cellAt r 1, divRoundCell weeks (cellAt r 2), Cell.str pos]) ∧
        ∀ q, divRoundCell weeks (Cell.num q) = Cell.num (pyRound2 (q / weeks))) ∧
    pyRound2 ((340 : ℚ) / 17) = 20 ∧ pyRound2 ((255 : ℚ) / 17) = 15 := by
  refine ⟨?_, ?_, ?_⟩
  · intro weeks pos df res _ h
    obtain ⟨st, out, hex, _, hrows⟩ := attempt_body_ok_elim weeks pos df res h
    exact ⟨st, out, hex, hrows, fun q => rfl⟩
  · norm_num [pyRound2, roundHalfEven, round_eq]
  · norm_num [pyRound2, roundHalfEven, round_eq]

theorem convert_rate_spec_witness :
    ∃ st out,
      extract_player_team_fpts
          ⟨["player", "team", "fpts"],
            [[Cell.str "Josh Allen", Cell.str "BUF", Cell.num 340]]⟩ = .ok (st, out) ∧
      (⟨["player", "team", "proj_pts", "pos"],
          [[Cell.str "Josh Allen", Cell.str "BUF",
            Cell.num (pyRound2 ((340 : ℚ) / 17)), Cell.str "QB"]]⟩ : DataFrame).rows =
        out.rows.map (fun r =>
          [cellAt r 0, cellAt r 1, divRoundCell 17 (cellAt r 2), Cell.str "QB"]) ∧
      ∀ q, divRoundCell 17 (Cell.num q) = Cell.num (pyRound2 (q / 17)) :=
  convert_rate_spec.1 17 "QB"
    ⟨["player", "team", "fpts"],
      [[Cell.str "Josh Allen", Cell.str "BUF", Cell.num 340]]⟩
    ⟨["player", "team", "proj_pts", "pos"],
      [[Cell.str "Josh Allen", Cell.str "BUF",
        Cell.num (pyRound2 ((340 : ℚ) / 17)), Cell.str "QB"]]⟩
    (by norm_num) rfl

/-! ## Whitespace-token lemmas (shared by the team-splitting claims) -/

theorem splitOnP_ne_nil (p : Char → Bool) (l : List Char) : splitOnP p l ≠ [] := by
  cases l with
  | nil => simp [splitOnP]
  | cons c rest =>
    unfold splitOnP
    split
    · simp
    · split <;> simp

theorem splitOnP_chars (p : Char → Bool) (l : List Char) :
    ∀ piece ∈ splitOnP p l, ∀ c ∈ piece, p c = false := by
  induction l with
  | nil =>
    intro piece hp c hc
    simp [splitOnP] at hp
    subst hp
    simp at hc
  | cons x rest ih =>
    intro piece hp c hc
    unfold splitOnP at hp
    by_cases hx : p x = true
    · rw [if_pos hx] at hp
      rcases List.mem_cons.mp hp with h | h
      · subst h; simp at hc
      · exact ih piece h c hc
    · rw [if_neg hx] at hp
      rcases hsp : splitOnP p rest with _ | ⟨h0, t0⟩
      · exact absurd hsp (splitOnP_ne_nil p rest)
      · rw [hsp] at hp
        rcases List.mem_cons.mp hp with h | h
        · subst h
          rcases List.mem_cons.mp hc with h | h
          · subst h
            exact Bool.eq_false_iff.mpr hx
          · exact ih h0 (hsp ▸ List.mem_cons_self h0 t0) c h
        · exact ih piece (hsp ▸ List.mem_cons_of_mem h0 h) c hc

theorem wsTokens_mem (l pt : List Char) (h : pt ∈ wsTokens l) :
    pt ≠ [] ∧ ∀ c ∈ pt, c.isWhitespace = false := by
  unfold wsTokens at h
  obtain ⟨hmem, hne⟩ := List.mem_filter.mp h
  refine ⟨by simpa using hne, splitOnP_chars _ l pt hmem⟩

theorem dropWhile_of_none (p : Char → Bool) (l : List Char)
    (h : ∀ c ∈ l, p c = false) : l.dropWhile p = l := by
  cases l with
  | nil => rfl
  | cons c rest => simp [List.dropWhile, h c (List.mem_cons_self c rest)]

theorem pyStripL_of_no_ws (l : List Char) (h : ∀ c ∈ l, c.isWhitespace = false) :
    pyStripL l = l := by
  unfold pyStripL dropWs
  rw [dropWhile_of_none _ _ h]
  rw [dropWhile_of_none _ _ (fun c hc => h c (List.mem_reverse.mp hc))]
  exact List.reverse_reverse l

theorem splitOnP_append_sep (p : Char → Bool) (w : Char) (hw : p w = true) :
    ∀ l : List Char, splitOnP p (l ++ [w]) = splitOnP p l ++ [[]] := by
  intro l
  induction l with
  | nil => simp [splitOnP, hw]
  | cons c rest ih =>
    by_cases hc : p c = true
    · simp only [List.cons_append]
      unfold splitOnP
      rw [if_pos hc, if_pos hc, ih]
      rfl
    · simp only [List.cons_append]
      unfold splitOnP
      rw [if_neg hc, if_neg hc, ih]
      rcases hsp : splitOnP p rest with _ | ⟨h0, t0⟩
      · exact absurd hsp (splitOnP_ne_nil p rest)
      · rfl

theorem wsTokens_append_ws (l run : List Char)
    (h : ∀ c ∈ run, c.isWhitespace = true) : wsTokens (l ++ run) = wsTokens l := by
  induction run generalizing l with
  | nil => simp
  | cons w run ih =>
    have hw : Char.isWhitespace w = true := h w (List.mem_cons_self w run)
    have : l ++ w :: run = (l ++ [w]) ++ run := by simp
    rw [this, ih (l ++ [w]) (fun c hc => h c (List.mem_cons_of_mem w hc))]
    unfold wsTokens
    rw [splitOnP_append_sep _ w hw l]
    simp

theorem wsTokens_dropWs (l : List Char) : wsTokens (dropWs l) = wsTokens l := by
  induction l with
  | nil => rfl
  | cons c rest ih =>
    by_cases hc : c.isWhitespace = true
    · have h1 : dropWs (c :: rest) = dropWs rest := by
        simp [dropWs, List.dropWhile, hc]
      rw [h1, ih]
      have h2 : splitOnP Char.isWhitespace (c :: rest) =
          [] :: splitOnP Char.isWhitespace rest := by
        rw [splitOnP]
        rw [if_pos hc]
      unfold wsTokens
      rw [h2]
      simp
    · simp [dropWs, List.dropWhile, hc]

theorem pyStripL_decomp (l : List Char) :
    ∃ run, (∀ c ∈ run, c.isWhitespace = true) ∧ dropWs l = pyStripL l ++ run := by
  refine ⟨((dropWs l).reverse.takeWhile Char.isWhitespace).reverse, ?_, ?_⟩
  · intro c hc
    exact List.mem_takeWhile_imp (List.mem_reverse.mp hc)
  · unfold pyStripL dropWs
    rw [← List.reverse_append]
    rw [List.takeWhile_append_dropWhile]
    exact (List.reverse_reverse _).symm

theorem wsTokens_pyStripL (l : List Char) : wsTokens (pyStripL l) = wsTokens l := by
  obtain ⟨run, hrun, hdec⟩ := pyStripL_decomp l
  calc wsTokens (pyStripL l) = wsTokens (pyStripL l ++ run) :=
        (wsTokens_append_ws _ run hrun).symm
    _ = wsTokens (dropWs l) := by rw [← hdec]
    _ = wsTokens l := wsTokens_dropWs l

/-! ## Claim C10 -/

/-- The team value produced by the splitting heuristic is either the missing
marker or a non-empty whitespace-free token. -/
theorem extract_player_team_snd (c : Cell) :
    (extract_player_team c).2 = Cell.na ∨
    ∃ pt, (extract_player_team c).2 = Cell.str (String.mk pt) ∧ pt ≠ [] ∧
      ∀ ch ∈ pt, ch.isWhitespace = false := by
  simp only [extract_player_team]
  split
  next hlen =>
    split
    next hcond =>
      refine Or.inr ⟨(wsTokens (pyStripL (pyStr c).data)).getLast?.getD [], rfl, ?_⟩
      have hne : wsTokens (pyStripL (pyStr c).data) ≠ [] := by
        intro hnil
        rw [hnil] at hlen
        simp at hlen
      have hmem : (wsTokens (pyStripL (pyStr c).data)).getLast?.getD [] ∈
          wsTokens (pyStripL (pyStr c).data) := by
        rw [List.getLast?_eq_getLast _ hne]
        exact List.getLast_mem hne
      exact wsTokens_mem _ _ hmem
    · exact Or.inl rfl
  · exact Or.inl rfl

theorem resolve_player_ok_cases (df1 df2 : DataFrame)
    (h : resolve_player df1 = .ok df2) :
    ("player" ∈ df1.cols ∧ df2 = df1) ∨
    ("player" ∉ df1.cols ∧ "name" ∈ df1.cols ∧
      df2 = setCol df1 "player" (getCol df1 "name")) := by
  unfold resolve_player at h
  split at h
  next hp =>
    simp only [Except.ok.injEq] at h
    exact Or.inl ⟨hp, h.symm⟩
  next hp =>
    split at h
    next hn =>
      simp only [Except.ok.injEq] at h
      exact Or.inr ⟨hp, hn, h.symm⟩
    next => simp at h

theorem setCol_replace_eq (df : DataFrame) (c : String) (f : List Cell → Cell)
    (i : ℕ) (h : colIdx df c = some i) :
    setCol df c (df.rows.map f) =
      { df with rows := df.rows.map (fun r => r.set i (f r)) } := by
  simp only [setCol, h]
  congr 1
  rw [List.zipWith_map_right, List.zipWith_same]

theorem setCol_append_map2 (cols : List String) (base : List (List Cell))
    (c : String) (u : List Cell → List Cell) (w : List Cell → Cell)
    (h : colIdx ⟨cols, base.map u⟩ c = none) :
    setCol ⟨cols, base.map u⟩ c (base.map w) =
      ⟨cols ++ [c], base.map (fun b => u b ++ [w b])⟩ := by
  simp only [setCol, h]
  congr 1
  rw [List.zipWith_map, List.zipWith_same]

theorem findIdx?_append_last_from (l : List String) (c : String) :
    ∀ i : ℕ, (∀ x ∈ l, x ≠ c) →
      List.findIdx? (fun x => decide (x = c)) (l ++ [c]) i = some (i + l.length) := by
  induction l with
  | nil =>
    intro i _
    simp [List.findIdx?]
  | cons a l ih =>
    intro i h
    have ha : (decide (a = c)) = false := by
      simp only [decide_eq_false_iff_not]
      exact h a (List.mem_cons_self a l)
    rw [List.cons_append, List.findIdx?_cons, ha]
    simp only [Bool.false_eq_true, if_false]
    rw [ih (i + 1) (fun x hx => h x (List.mem_cons_of_mem a hx))]
    congr 1
    simp
    omega

theorem findIdx?_append_last (l : List String) (c : String)
    (h : ∀ x ∈ l, x ≠ c) :
    List.findIdx? (fun x => decide (x = c)) (l ++ [c]) = some l.length := by
  have := findIdx?_append_last_from l c 0 h
  simpa using this

theorem colIdx_of_mem (df : DataFrame) (c : String) (h : c ∈ df.cols) :
    ∃ i, colIdx df c = some i := by
  rcases hi : colIdx df c with _ | i
  · exact absurd h ((colIdx_eq_none_iff df c).mp hi)
  · exact ⟨i, rfl⟩

/-- The heuristic branch of `resolve_team` in closed form: the player column
is overwritten with the split names and a `team` column is appended. -/
theorem resolve_team_heuristic (df2 : DataFrame)
    (hteam : "team" ∉ df2.cols) (htm : "tm" ∉ df2.cols) (ip : ℕ)
    (hip : colIdx df2 "player" = some ip) :
    resolve_team df2 = ⟨df2.cols ++ ["team"], df2.rows.map
      (fun b => b.set ip ((extract_player_team (cellAt b ip)).1) ++
        [(extract_player_team (cellAt b ip)).2])⟩ := by
  have hst_eq : resolve_team df2 =
      setCol (setCol df2 "player"
          (((getCol df2 "player").map extract_player_team).map Prod.fst)) "team"
        (((getCol df2 "player").map extract_player_team).map Prod.snd) := by
    simp only [resolve_team]
    rw [if_neg hteam, if_neg htm]
  have hget : getCol df2 "player" = df2.rows.map (fun r => cellAt r ip) := by
    unfold getCol
    rw [hip]
  have hfst : ((getCol df2 "player").map extract_player_team).map Prod.fst =
      df2.rows.map (fun r => (extract_player_team (cellAt r ip)).1) := by
    rw [hget, List.map_map, List.map_map]
    rfl
  have hsnd : ((getCol df2 "player").map extract_player_team).map Prod.snd =
      df2.rows.map (fun r => (extract_player_team (cellAt r ip)).2) := by
    rw [hget, List.map_map, List.map_map]
    rfl
  have hA : setCol df2 "player"
      (((getCol df2 "player").map extract_player_team).map Prod.fst) =
      ⟨df2.cols,
        df2.rows.map (fun r => r.set ip ((extract_player_team (cellAt r ip)).1))⟩ := by
    rw [hfst]
    exact setCol_replace_eq df2 "player" _ ip hip
  rw [hst_eq, hA, hsnd]
  exact setCol_append_map2 df2.cols df2.rows "team" _ _
    (by rw [colIdx_eq_none_iff]; simpa using hteam)

/-- Uniform core of C10: on a two-column-resolved frame without team columns,
`resolve_team`'s heuristic output coerces to a non-empty team string in every
output row. -/
theorem team_nonempty_aux (df2 st out : DataFrame) (fc : String)
    (hteam : "team" ∉ df2.cols) (htm : "tm" ∉ df2.cols)
    (hplayer : "player" ∈ df2.cols)
    (hwf : ∀ b ∈ df2.rows, b.length = df2.cols.length)
    (hst : st = resolve_team df2) (hout : out = build_out st fc) :
    ∀ r ∈ out.rows, ∃ t, cellAt r 1 = Cell.str t ∧ t ≠ "" := by
  obtain ⟨ip, hip⟩ := colIdx_of_mem df2 "player" hplayer
  have hstx : st = ⟨df2.cols ++ ["team"], df2.rows.map
      (fun b => b.set ip ((extract_player_team (cellAt b ip)).1) ++
        [(extract_player_team (cellAt b ip)).2])⟩ := by
    rw [hst]
    exact resolve_team_heuristic df2 hteam htm ip hip
  -- the team column of st sits at index df2.cols.length
  have hidx : colIdx st "team" = some df2.cols.length := by
    rw [hstx]
    unfold colIdx
    exact findIdx?_append_last df2.cols "team"
      (fun x hx => fun hxc => hteam (hxc ▸ hx))
  intro r hr
  rw [hout, build_out_eq] at hr
  obtain ⟨hmem, _⟩ := List.mem_filter.mp hr
  obtain ⟨r0, hr0, rfl⟩ := List.mem_map.mp hmem
  refine ⟨pyStrip (pyStr (selCell st r0 "team")), by simp [coerceTriple], ?_⟩
  -- identify the team cell of r0
  have hsel : selCell st r0 "team" = cellAt r0 df2.cols.length := by
    unfold selCell
    rw [hidx]
  rw [hstx] at hr0
  obtain ⟨b, hb, rfl⟩ := List.mem_map.mp hr0
  have hlen : (b.set ip ((extract_player_team (cellAt b ip)).1)).length =
      df2.cols.length := by
    rw [List.length_set]
    exact hwf b hb
  have hcat : ∀ (l : List Cell) (x : Cell), cellAt (l ++ [x]) l.length = x := by
    intro l x
    unfold cellAt
    rw [List.getElem?_concat_length]
    rfl
  have hcell : cellAt (b.set ip ((extract_player_team (cellAt b ip)).1) ++
      [(extract_player_team (cellAt b ip)).2]) df2.cols.length =
      (extract_player_team (cellAt b ip)).2 := by
    rw [← hlen]
    exact hcat _ _
  rw [hsel, hcell]
  rcases extract_player_team_snd (cellAt b ip) with hna | ⟨pt, hpt, hptne, hptws⟩
  · rw [hna]
    intro hcontra
    exact absurd (congrArg String.data hcontra) (by decide)
  · rw [hpt]
    have : pyStrip (pyStr (Cell.str (String.mk pt))) = String.mk pt := by
      show String.mk (pyStripL pt) = String.mk pt
      rw [pyStripL_of_no_ws pt hptws]
    rw [this]
    intro hcontra
    exact hptne (congrArg String.data hcontra)

/-- C10 counterexample: with a separate `team` column holding an empty string,
the output row keeps the empty team; so "no output row ever has an empty team"
fails. The `<NA>` marker only arises on the heuristic path. -/
theorem empty_team_cell_passes_through :
    extract_player_team_fpts
        ⟨["player", "team", "fpts"], [[Cell.str "Joe", Cell.str "", Cell.num 5]]⟩ =
      .ok (⟨["player", "team", "fpts"], [[Cell.str "Joe", Cell.str "", Cell.num 5]]⟩,
           ⟨["player", "team", "fpts"], [[Cell.str "Joe", Cell.str "", Cell.num 5]]⟩) ∧
    cellAt [Cell.str "Joe", Cell.str "", Cell.num 5] 1 = Cell.str "" := by
  exact ⟨rfl, rfl⟩

/-- C10 (amended): when the input table has no separate `team`/`tm` column, the
heuristic marks unknown teams with `pd.NA` and the string coercion renders it
as the non-empty literal `<NA>`, so every output row has a non-empty team
string; but when a `team` column exists, empty team strings pass through. -/
theorem no_team_column_team_nonempty :
    ∀ (df st out : DataFrame),
      (∀ r ∈ df.rows, r.length = df.cols.length) →
      "team" ∉ (clean_columns df).cols → "tm" ∉ (clean_columns df).cols →
      extract_player_team_fpts df = .ok (st, out) →
      ∀ r ∈ out.rows, ∃ t, cellAt r 1 = Cell.str t ∧ t ≠ "" := by
  intro df st out hwf hteam htm hex
  obtain ⟨df2, fc, hrp, hst, _, hout⟩ := extract_ok_elim df st out hex
  have hclean_cols : (clean_columns df).cols.length = df.cols.length := by
    simp [clean_columns]
  have hclean_rows : (clean_columns df).rows = df.rows := rfl
  rcases resolve_player_ok_cases _ _ hrp with ⟨hp, rfl⟩ | ⟨hp, hn, hdf2⟩
  · exact team_nonempty_aux _ st out fc hteam htm hp
      (fun b hb => by rw [hclean_rows] at hb; rw [hclean_cols]; exact hwf b hb)
      hst hout
  · obtain ⟨j, hj⟩ := colIdx_of_mem (clean_columns df) "name" hn
    have hgn : getCol (clean_columns df) "name" =
        (clean_columns df).rows.map (fun r => cellAt r j) := by
      unfold getCol
      rw [hj]
    have hdf2x : df2 = ⟨(clean_columns df).cols ++ ["player"],
        (clean_columns df).rows.map (fun r => r ++ [cellAt r j])⟩ := by
      rw [hdf2, hgn]
      exact setCol_append_eq (clean_columns df) "player" _
        (by rw [colIdx_eq_none_iff]; exact hp)
    refine team_nonempty_aux df2 st out fc ?_ ?_ ?_ ?_ hst hout
    · rw [hdf2x]
      simp only [List.mem_append, List.mem_singleton]
      rintro (h | h)
      · exact hteam h
      · simp at h
    · rw [hdf2x]
      simp only [List.mem_append, List.mem_singleton]
      rintro (h | h)
      · exact htm h
      · simp at h
    · rw [hdf2x]
      simp
    · rw [hdf2x]
      intro b hb
      obtain ⟨b0, hb0, rfl⟩ := List.mem_map.mp hb
      rw [hclean_rows] at hb0
      have hb0l := hwf b0 hb0
      simp only [List.length_append, List.length_cons, List.length_nil]
      omega

theorem no_team_column_team_nonempty_witness :
    ∃ t, cellAt [Cell.str "Lamar Jackson", Cell.str "BAL", Cell.num 300] 1 =
      Cell.str t ∧ t ≠ "" :=
  no_team_column_team_nonempty
    ⟨["player", "fpts"], [[Cell.str "Lamar Jackson BAL", Cell.num 300]]⟩
    ⟨["player", "fpts", "team"],
      [[Cell.str "Lamar Jackson", Cell.num 300, Cell.str "BAL"]]⟩
    ⟨["player", "team", "fpts"],
      [[Cell.str "Lamar Jackson", Cell.str "BAL", Cell.num 300]]⟩
    (by decide) (by decide) (by decide) rfl
    [Cell.str "Lamar Jackson", Cell.str "BAL", Cell.num 300]
    (List.mem_singleton_self _)

/-! ## Claim C8 -/

/-- `resolve_team` keeps the column list (possibly extending it by `team`) and
never changes the number of rows. -/
theorem resolve_team_shape (df2 : DataFrame) (hp : "player" ∈ df2.cols) :
    ∃ ext, (resolve_team df2).cols = df2.cols ++ ext ∧
      (resolve_team df2).rows.length = df2.rows.length := by
  by_cases hteam : "team" ∈ df2.cols
  · obtain ⟨i, hi⟩ := colIdx_of_mem df2 "team" hteam
    have hrt : resolve_team df2 = setCol df2 "team" (getCol df2 "team") := by
      simp only [resolve_team]
      rw [if_pos hteam]
    have hg : getCol df2 "team" = df2.rows.map (fun r => cellAt r i) := by
      unfold getCol
      rw [hi]
    rw [hrt, hg, setCol_replace_eq df2 "team" _ i hi]
    exact ⟨[], by simp, by simp⟩
  · by_cases htm : "tm" ∈ df2.cols
    · obtain ⟨i, hi⟩ := colIdx_of_mem df2 "tm" htm
      have hrt : resolve_team df2 = setCol df2 "team" (getCol df2 "tm") := by
        simp only [resolve_team]
        rw [if_neg hteam, if_pos htm]
      have hg : getCol df2 "tm" = df2.rows.map (fun r => cellAt r i) := by
        unfold getCol
        rw [hi]
      rw [hrt, hg,
        setCol_append_eq df2 "team" _ (by rw [colIdx_eq_none_iff]; exact hteam)]
      exact ⟨["team"], rfl, by simp⟩
    · obtain ⟨ip, hip⟩ := colIdx_of_mem df2 "player" hp
      rw [resolve_team_heuristic df2 hteam htm ip hip]
      exact ⟨["team"], rfl, by simp⟩

/-- C8 counterexample: the call mutates the frame passed in — the labels are
canonicalized in place, the player column is overwritten with split names and
a team column is appended — so the input object is not left unchanged. -/
theorem extract_mutates_input :
    extract_player_team_fpts
        ⟨["Player", "FPTS"], [[Cell.str "Lamar Jackson BAL", Cell.num 300]]⟩ =
      .ok (⟨["player", "fpts", "team"],
             [[Cell.str "Lamar Jackson", Cell.num 300, Cell.str "BAL"]]⟩,
           ⟨["player", "team", "fpts"],
             [[Cell.str "Lamar Jackson", Cell.str "BAL", Cell.num 300]]⟩) ∧
    (⟨["player", "fpts", "team"],
        [[Cell.str "Lamar Jackson", Cell.num 300, Cell.str "BAL"]]⟩ : DataFrame) ≠
      ⟨["Player", "FPTS"], [[Cell.str "Lamar Jackson BAL", Cell.num 300]]⟩ := by
  refine ⟨rfl, by decide⟩

/-- C8 (amended): `extract_player_team_fpts` is not free of side effects on its
input: after a successful call the input frame's original column labels have
been canonicalized (trimmed and lower-cased) in place — with derived columns
possibly appended after them — though its row count is unchanged. (The returned
output table is a fresh copy.) -/
theorem extract_mutation_bound :
    ∀ (df0 st out : DataFrame), extract_player_team_fpts df0 = .ok (st, out) →
      st.cols.take df0.cols.length = df0.cols.map (fun c => pyLower (pyStrip c)) ∧
      st.rows.length = df0.rows.length := by
  intro df0 st out hex
  obtain ⟨df2, fc, hrp, hst, _, _⟩ := extract_ok_elim df0 st out hex
  have hdf2 : df2.cols.take df0.cols.length =
        df0.cols.map (fun c => pyLower (pyStrip c)) ∧
      df2.rows.length = df0.rows.length ∧ "player" ∈ df2.cols := by
    rcases resolve_player_ok_cases _ _ hrp with ⟨hp, rfl⟩ | ⟨hp, hn, hdf2⟩
    · refine ⟨?_, rfl, hp⟩
      exact List.take_of_length_le (by simp [clean_columns])
    · obtain ⟨j, hj⟩ := colIdx_of_mem (clean_columns df0) "name" hn
      have hgn : getCol (clean_columns df0) "name" =
          (clean_columns df0).rows.map (fun r => cellAt r j) := by
        unfold getCol
        rw [hj]
      have hdf2x : df2 = ⟨(clean_columns df0).cols ++ ["player"],
          (clean_columns df0).rows.map (fun r => r ++ [cellAt r j])⟩ := by
        rw [hdf2, hgn]
        exact setCol_append_eq (clean_columns df0) "player" _
          (by rw [colIdx_eq_none_iff]; exact hp)
      rw [hdf2x]
      refine ⟨?_, by simp [clean_columns], by simp⟩
      exact List.take_left' (by simp [clean_columns])
  obtain ⟨hc2, hr2, hp2⟩ := hdf2
  obtain ⟨ext, hce, hre⟩ := resolve_team_shape df2 hp2
  have hlen2 : df0.cols.length ≤ df2.cols.length := by
    have := congrArg List.length hc2
    rw [List.length_take, List.length_map] at this
    omega
  rw [hst]
  constructor
  · rw [hce, List.take_append_of_le_length hlen2]
    exact hc2
  · rw [hre, hr2]

theorem extract_mutation_bound_witness :
    (["player", "fpts", "team"].take
        (["Player", "FPTS"] : List String).length =
      ["Player", "FPTS"].map (fun c => pyLower (pyStrip c))) ∧
    ([[Cell.str "Lamar Jackson", Cell.num 300, Cell.str "BAL"]] :
        List (List Cell)).length =
      ([[Cell.str "Lamar Jackson BAL", Cell.num 300]] : List (List Cell)).length :=
  extract_mutation_bound
    ⟨["Player", "FPTS"], [[Cell.str "Lamar Jackson BAL", Cell.num 300]]⟩
    ⟨["player", "fpts", "team"],
      [[Cell.str "Lamar Jackson", Cell.num 300, Cell.str "BAL"]]⟩
    ⟨["player", "team", "fpts"],
      [[Cell.str "Lamar Jackson", Cell.str "BAL", Cell.num 300]]⟩
    rfl

/-! ## Claim C2 -/

/-- C2: with no `team`/`tm` column, each player cell is split on whitespace;
the last token is taken as the team exactly when there are at least two tokens
and it has length ≤ 4 and is entirely upper-case — the player then becomes the
preceding tokens rejoined — and otherwise the team is marked unknown (`pd.NA`)
and the cell is left unchanged; `"Lamar Jackson BAL"` splits to
`("Lamar Jackson", "BAL")`. -/
theorem team_split_heuristic_spec :
    (∀ (s : String) (pt : List Char),
      (wsTokens s.data).getLast? = some pt →
      2 ≤ (wsTokens s.data).length →
      pt.length ≤ 4 →
      pyIsUpperL pt = true →
      extract_player_team (.str s) =
        (.str (String.mk (joinWith ' ' (wsTokens s.data).dropLast)),
         .str (String.mk pt))) ∧
    (∀ s : String,
      (∀ pt, (wsTokens s.data).getLast? = some pt →
        ¬(2 ≤ (wsTokens s.data).length ∧ pt.length ≤ 4 ∧ pyIsUpperL pt = true)) →
      extract_player_team (.str s) = (.str s, .na)) ∧
    extract_player_team (.str "Lamar Jackson BAL") =
      (.str "Lamar Jackson", .str "BAL") := by
  have hparts : ∀ s : String,
      wsTokens (pyStripL (pyStr (Cell.str s)).data) = wsTokens s.data := by
    intro s
    exact wsTokens_pyStripL s.data
  refine ⟨?_, ?_, by rfl⟩
  · intro s pt hlast hlen hle hup
    simp only [extract_player_team, hparts s]
    rw [if_pos hlen, hlast]
    simp only [Option.getD_some]
    rw [if_pos ⟨hle, hup⟩]
  · intro s hno
    simp only [extract_player_team, hparts s]
    by_cases hlen : 2 ≤ (wsTokens s.data).length
    · have hne : wsTokens s.data ≠ [] := by
        intro hnil
        rw [hnil] at hlen
        simp at hlen
      have hlast := List.getLast?_eq_getLast _ hne
      have hcond := hno _ hlast
      rw [if_pos hlen, hlast]
      simp only [Option.getD_some]
      rw [if_neg (fun hc => hcond ⟨hlen, hc.1, hc.2⟩)]
    · rw [if_neg hlen]

theorem team_split_heuristic_spec_witness :
    extract_player_team (.str "Joe Flacco IND") =
      (.str "Joe Flacco", .str "IND") := by
  have h := team_split_heuristic_spec.1 "Joe Flacco IND" "IND".data
    rfl (by decide) (by decide) (by decide)
  exact h

/-! ## Claim C7 -/

/-- C7: the aggregated output is the concatenation of the per-position frames
in the given (configured) order, preserving within-frame row order, restricted
to rows whose `pos` is one of QB/RB/WR/TE, with columns exactly
`player, team, proj_pts, pos` in that order. -/
theorem aggregate_spec :
    ∀ frames : List DataFrame, frames ≠ [] →
      (∀ f ∈ frames, f.cols = ["player", "team", "proj_pts", "pos"]) →
      (∀ f ∈ frames, ∀ r ∈ f.rows,
        ∃ p t q s, r = [Cell.str p, Cell.str t, Cell.num q, Cell.str s]) →
      (main_aggregate frames).cols = ["player", "team", "proj_pts", "pos"] ∧
      (main_aggregate frames).rows = (frames.flatMap (·.rows)).filter
        (fun r => decide (cellAt r 3 ∈
          [Cell.str "QB", Cell.str "RB", Cell.str "WR", Cell.str "TE"])) := by
  intro frames hne hcols hshape
  obtain ⟨f0, rest, rfl⟩ := List.exists_cons_of_ne_nil hne
  have hshape2 : ∀ r ∈ ((f0 :: rest).flatMap (·.rows)).filter
      (fun r => decide (cellAt r 3 ∈
        [Cell.str "QB", Cell.str "RB", Cell.str "WR", Cell.str "TE"])),
      ∃ p t q s, r = [Cell.str p, Cell.str t, Cell.num q, Cell.str s] := by
    intro r hr
    obtain ⟨hmem, _⟩ := List.mem_filter.mp hr
    obtain ⟨f, hf, hrf⟩ := List.mem_flatMap.mp hmem
    exact hshape f hf r hrf
  have h1 : pdConcat (f0 :: rest) =
      ⟨["player", "team", "proj_pts", "pos"], (f0 :: rest).flatMap (·.rows)⟩ := by
    unfold pdConcat
    rw [show (f0 :: rest).head? = some f0 from rfl]
    rw [show (some f0).map (·.cols) = some f0.cols from rfl]
    rw [hcols f0 (List.mem_cons_self f0 rest)]
    rfl
  have h2 : filterIsin
      (⟨["player", "team", "proj_pts", "pos"], (f0 :: rest).flatMap (·.rows)⟩ :
        DataFrame) "pos"
      [Cell.str "QB", Cell.str "RB", Cell.str "WR", Cell.str "TE"] =
      ⟨["player", "team", "proj_pts", "pos"],
        ((f0 :: rest).flatMap (·.rows)).filter
          (fun r => decide (cellAt r 3 ∈
            [Cell.str "QB", Cell.str "RB", Cell.str "WR", Cell.str "TE"]))⟩ := by
    unfold filterIsin
    rfl
  simp only [main_aggregate]
  rw [h1, h2]
  have h3 : selectCols
      (⟨["player", "team", "proj_pts", "pos"],
        ((f0 :: rest).flatMap (·.rows)).filter
          (fun r => decide (cellAt r 3 ∈
            [Cell.str "QB", Cell.str "RB", Cell.str "WR", Cell.str "TE"]))⟩ :
        DataFrame)
      ["player", "team", "proj_pts", "pos"] =
      ⟨["player", "team", "proj_pts", "pos"],
        (((f0 :: rest).flatMap (·.rows)).filter
          (fun r => decide (cellAt r 3 ∈
            [Cell.str "QB", Cell.str "RB", Cell.str "WR", Cell.str "TE"]))).map
          (fun r => [cellAt r 0, cellAt r 1, cellAt r 2, cellAt r 3])⟩ := rfl
  rw [h3]
  have h4 := mapCol_eq
    (⟨["player", "team", "proj_pts", "pos"],
      (((f0 :: rest).flatMap (·.rows)).filter
        (fun r => decide (cellAt r 3 ∈
          [Cell.str "QB", Cell.str "RB", Cell.str "WR", Cell.str "TE"]))).map
        (fun r => [cellAt r 0, cellAt r 1, cellAt r 2, cellAt r 3])⟩ : DataFrame)
    "proj_pts" toNumericCell 2 rfl
  rw [h4]
  refine ⟨rfl, ?_⟩
  rw [List.map_map]
  have := List.map_congr_left (l := ((f0 :: rest).flatMap (·.rows)).filter
      (fun r => decide (cellAt r 3 ∈
        [Cell.str "QB", Cell.str "RB", Cell.str "WR", Cell.str "TE"])))
    (f := (fun r => r.set 2 (toNumericCell (cellAt r 2))) ∘
      (fun r => [cellAt r 0, cellAt r 1, cellAt r 2, cellAt r 3]))
    (g := id)
    (fun r hr => by
      obtain ⟨p, t, q, s, rfl⟩ := hshape2 r hr
      simp [Function.comp, toNumericCell, List.set])
  rw [this, List.map_id]

theorem aggregate_spec_witness :
    (main_aggregate
        [⟨["player", "team", "proj_pts", "pos"],
          [[Cell.str "Josh Allen", Cell.str "BUF", Cell.num 20, Cell.str "QB"]]⟩,
         ⟨["player", "team", "proj_pts", "pos"],
          [[Cell.str "Bijan Robinson", Cell.str "ATL", Cell.num 16, Cell.str "RB"],
           [Cell.str "Someone Else", Cell.str "ATL", Cell.num 9, Cell.str "K"]]⟩]).cols =
      ["player", "team", "proj_pts", "pos"] ∧
    (main_aggregate
        [⟨["player", "team", "proj_pts", "pos"],
          [[Cell.str "Josh Allen", Cell.str "BUF", Cell.num 20, Cell.str "QB"]]⟩,
         ⟨["player", "team", "proj_pts", "pos"],
          [[Cell.str "Bijan Robinson", Cell.str "ATL", Cell.num 16, Cell.str "RB"],
           [Cell.str "Someone Else", Cell.str "ATL", Cell.num 9, Cell.str "K"]]⟩]).rows =
      (([⟨["player", "team", "proj_pts", "pos"],
          [[Cell.str "Josh Allen", Cell.str "BUF", Cell.num 20, Cell.str "QB"]]⟩,
         ⟨["player", "team", "proj_pts", "pos"],
          [[Cell.str "Bijan Robinson", Cell.str "ATL", Cell.num 16, Cell.str "RB"],
           [Cell.str "Someone Else", Cell.str "ATL", Cell.num 9, Cell.str "K"]]⟩] :
        List DataFrame).flatMap (·.rows)).filter
        (fun r => decide (cellAt r 3 ∈
          [Cell.str "QB", Cell.str "RB", Cell.str "WR", Cell.str "TE"])) :=
  aggregate_spec
    [⟨["player", "team", "proj_pts", "pos"],
      [[Cell.str "Josh Allen", Cell.str "BUF", Cell.num 20, Cell.str "QB"]]⟩,
     ⟨["player", "team", "proj_pts", "pos"],
      [[Cell.str "Bijan Robinson", Cell.str "ATL", Cell.num 16, Cell.str "RB"],
       [Cell.str "Someone Else", Cell.str "ATL", Cell.num 9, Cell.str "K"]]⟩]
    (by decide)
    (by
      intro f hf
      simp only [List.mem_cons, List.not_mem_nil, or_false] at hf
      rcases hf with h | h
      · rw [h]
      · rw [h])
    (by
      intro f hf r hr
      simp only [List.mem_cons, List.not_mem_nil, or_false] at hf
      rcases hf with h | h
      · subst h
        simp only [List.mem_cons, List.not_mem_nil, or_false] at hr
        exact ⟨"Josh Allen", "BUF", 20, "QB", hr⟩
      · subst h
        simp only [List.mem_cons, List.not_mem_nil, or_false] at hr
        rcases hr with h | h
        · exact ⟨"Bijan Robinson", "ATL", 16, "RB", h⟩
        · exact ⟨"Someone Else", "ATL", 9, "K", h⟩)

/-! ## Claim C5 — percent-encoding round trip -/

theorem char_toNat_ofNat (n : ℕ) (h : n < 55296) : (Char.ofNat n).toNat = n := by
  unfold Char.ofNat
  rw [dif_pos (by unfold Nat.isValidChar; omega : Nat.isValidChar n)]
  rfl

theorem isHex_hexDigitUpper : ∀ n < 16, isHexDigitCh (hexDigitUpper n) = true := by
  decide

theorem hexVal_hexDigitUpper : ∀ n < 16, hexVal (hexDigitUpper n) = n := by
  decide

theorem hexDigitUpper_ne_amp_eq :
    ∀ n < 16, hexDigitUpper n ≠ '&' ∧ hexDigitUpper n ≠ '=' := by
  decide

theorem encodeChar_chars (c : Char) : ∀ d ∈ encodeChar c, d ≠ '&' ∧ d ≠ '=' := by
  intro d hd
  unfold encodeChar at hd
  split at hd
  · simp only [List.mem_singleton] at hd
    subst hd
    exact ⟨by decide, by decide⟩
  · split at hd
    next hsafe =>
      simp only [List.mem_singleton] at hd
      subst hd
      constructor
      · intro hc
        rw [hc] at hsafe
        exact absurd hsafe (by decide)
      · intro hc
        rw [hc] at hsafe
        exact absurd hsafe (by decide)
    next =>
      rcases List.mem_cons.mp hd with h | hd2
      · subst h
        exact ⟨by decide, by decide⟩
      · rcases List.mem_cons.mp hd2 with h | hd3
        · subst h
          exact hexDigitUpper_ne_amp_eq _ (Nat.mod_lt _ (by omega))
        · rcases List.mem_cons.mp hd3 with h | hd4
          · subst h
            exact hexDigitUpper_ne_amp_eq _ (Nat.mod_lt _ (by omega))
          · simp at hd4

theorem unquote_plus_nil : unquote_plus [] = [] := by
  rw [unquote_plus.eq_def]

theorem unquote_plus_plus (rest : List Char) :
    unquote_plus ('+' :: rest) = ' ' :: unquote_plus rest := by
  rw [unquote_plus.eq_def]
  simp

theorem unquote_plus_other (c : Char) (rest : List Char)
    (h1 : c ≠ '+') (h2 : c ≠ '%') :
    unquote_plus (c :: rest) = c :: unquote_plus rest := by
  rw [unquote_plus.eq_def]
  simp [h1, h2]

theorem unquote_plus_pct (a b : Char) (rest2 : List Char)
    (ha : isHexDigitCh a = true) (hb : isHexDigitCh b = true) :
    unquote_plus ('%' :: a :: b :: rest2) =
      Char.ofNat (16 * hexVal a + hexVal b) :: unquote_plus rest2 := by
  rw [unquote_plus.eq_def]
  simp [ha, hb]

theorem unquote_plus_encodeChar (c : Char) (h : c.toNat < 256) (rest : List Char) :
    unquote_plus (encodeChar c ++ rest) = c :: unquote_plus rest := by
  unfold encodeChar
  split
  next hsp =>
    subst hsp
    rw [List.singleton_append, unquote_plus_plus]
  next hsp =>
    split
    next hsafe =>
      have hplus : c ≠ '+' := by
        intro h'
        rw [h'] at hsafe
        exact absurd hsafe (by decide)
      have hpct : c ≠ '%' := by
        intro h'
        rw [h'] at hsafe
        exact absurd hsafe (by decide)
      rw [List.singleton_append]
      exact unquote_plus_other c rest hplus hpct
    next hsafe =>
      have hd1 : c.toNat / 16 % 16 < 16 := Nat.mod_lt _ (by omega)
      have hd2 : c.toNat % 16 < 16 := Nat.mod_lt _ (by omega)
      show unquote_plus ('%' :: hexDigitUpper (c.toNat / 16 % 16) ::
        hexDigitUpper (c.toNat % 16) :: rest) = c :: unquote_plus rest
      rw [unquote_plus_pct _ _ _ (isHex_hexDigitUpper _ hd1) (isHex_hexDigitUpper _ hd2)]
      congr 1
      rw [hexVal_hexDigitUpper _ hd1, hexVal_hexDigitUpper _ hd2]
      have hval : 16 * (c.toNat / 16 % 16) + c.toNat % 16 = c.toNat := by omega
      rw [hval]
      exact Char.ofNat_toNat c

theorem unquote_quote (l : List Char) (h : ∀ c ∈ l, c.toNat < 256) :
    unquote_plus (quote_plus l) = l := by
  induction l with
  | nil => exact unquote_plus_nil
  | cons c l ih =>
    rw [show quote_plus (c :: l) = encodeChar c ++ quote_plus l from rfl]
    rw [unquote_plus_encodeChar c (h c (List.mem_cons_self c l))]
    rw [ih (fun d hd => h d (List.mem_cons_of_mem c hd))]

theorem splitFirstEq_append (a b : List Char) (ha : ∀ c ∈ a, c ≠ '=') :
    splitFirstEq (a ++ '=' :: b) = some (a, b) := by
  induction a with
  | nil =>
    rw [List.nil_append, splitFirstEq]
    rw [if_pos rfl]
  | cons c a ih =>
    rw [List.cons_append, splitFirstEq]
    rw [if_neg (ha c (List.mem_cons_self c a))]
    rw [ih (fun d hd => ha d (List.mem_cons_of_mem c hd))]
    rfl

theorem splitOnP_of_no_sep (p : Char → Bool) (f : List Char)
    (h : ∀ c ∈ f, p c = false) : splitOnP p f = [f] := by
  induction f with
  | nil => rfl
  | cons c f ih =>
    rw [splitOnP]
    rw [if_neg (by simp [h c (List.mem_cons_self c f)])]
    rw [ih (fun d hd => h d (List.mem_cons_of_mem c hd))]

theorem splitOnP_append_first (p : Char → Bool) (w : Char) (hw : p w = true)
    (f rest : List Char) (hf : ∀ c ∈ f, p c = false) :
    splitOnP p (f ++ w :: rest) = f :: splitOnP p rest := by
  induction f with
  | nil =>
    rw [List.nil_append, splitOnP]
    rw [if_pos hw]
  | cons c f ih =>
    rw [List.cons_append, splitOnP]
    rw [if_neg (by simp [hf c (List.mem_cons_self c f)])]
    rw [ih (fun d hd => hf d (List.mem_cons_of_mem c hd))]

theorem splitOnP_joinWith (p : Char → Bool) (sep : Char) (hsep : p sep = true) :
    ∀ fields : List (List Char), fields ≠ [] →
      (∀ f ∈ fields, ∀ c ∈ f, p c = false) →
      splitOnP p (joinWith sep fields) = fields := by
  intro fields
  induction fields with
  | nil => intro h; exact absurd rfl h
  | cons f fields ih =>
    intro _ hall
    cases fields with
    | nil => exact splitOnP_of_no_sep p f (hall f (List.mem_cons_self f []))
    | cons g t =>
      rw [show joinWith sep (f :: g :: t) = f ++ sep :: joinWith sep (g :: t) from rfl]
      rw [splitOnP_append_first p sep hsep f _ (hall f (List.mem_cons_self f _))]
      rw [ih (by simp) (fun f' hf' => hall f' (List.mem_cons_of_mem f hf'))]

theorem filterMap_id_of {α : Type} (f : α → Option α) (l : List α)
    (h : ∀ x ∈ l, f x = some x) : List.filterMap f l = l := by
  induction l with
  | nil => rfl
  | cons x l ih =>
    rw [List.filterMap_cons, h x (List.mem_cons_self x l)]
    rw [ih (fun y hy => h y (List.mem_cons_of_mem x hy))]

/-- Re-parsing an encoded pair list gives it back exactly (single-byte chars). -/
theorem parse_qsl_urlencode (m : List (List Char × List Char))
    (h : ∀ p ∈ m, (∀ c ∈ p.1, c.toNat < 256) ∧ (∀ c ∈ p.2, c.toNat < 256)) :
    parse_qsl (urlencode m) = m := by
  cases m with
  | nil => rfl
  | cons p0 m0 =>
    unfold parse_qsl urlencode
    rw [splitOnP_joinWith _ '&' rfl _ (by simp) ?fieldchars]
    case fieldchars =>
      intro f hf c hc
      obtain ⟨p, _, rfl⟩ := List.mem_map.mp hf
      rcases List.mem_append.mp hc with hc1 | hc2
      · obtain ⟨d, _, hcd⟩ := List.mem_flatMap.mp hc1
        have := (encodeChar_chars d c hcd).1
        simp [this]
      · rcases List.mem_cons.mp hc2 with rfl | hc3
        · decide
        · obtain ⟨d, _, hcd⟩ := List.mem_flatMap.mp hc3
          have := (encodeChar_chars d c hcd).1
          simp [this]
    rw [List.filterMap_map]
    refine filterMap_id_of _ _ (fun p hp => ?_)
    obtain ⟨h1, h2⟩ := h p hp
    obtain ⟨k, v⟩ := p
    have hemp : (quote_plus k ++ '=' :: quote_plus v).isEmpty = false := by
      cases hq : quote_plus k with
      | nil => rfl
      | cons a l => rfl
    have hsplit : splitFirstEq (quote_plus k ++ '=' :: quote_plus v) =
        some (quote_plus k, quote_plus v) :=
      splitFirstEq_append _ _ (fun c hc => by
        obtain ⟨d, _, hcd⟩ := List.mem_flatMap.mp hc
        exact (encodeChar_chars d c hcd).2)
    show (if (quote_plus k ++ '=' :: quote_plus v).isEmpty then none
      else match splitFirstEq (quote_plus k ++ '=' :: quote_plus v) with
        | some q => some (unquote_plus q.1, unquote_plus q.2)
        | none => some (unquote_plus (quote_plus k ++ '=' :: quote_plus v),
            unquote_plus [])) = some (k, v)
    rw [hemp, hsplit]
    simp only [Bool.false_eq_true, if_false]
    rw [unquote_quote k h1, unquote_quote v h2]

/-! ## Claim C5 — insertion-ordered dict lemmas -/

section Dict

variable {K V : Type} [DecidableEq K]

theorem keys_dinsert (m : List (K × V)) (k : K) (v : V) :
    (dinsert m k v).map Prod.fst =
      if k ∈ m.map Prod.fst then m.map Prod.fst else m.map Prod.fst ++ [k] := by
  unfold dinsert
  split
  next h =>
    rw [List.map_map]
    refine List.map_congr_left (fun p _ => ?_)
    simp only [Function.comp]
    split <;> simp_all
  next h =>
    simp

theorem dlookup_map_replace (m : List (K × V)) (k q : K) (v : V) (hq : q ≠ k) :
    dlookup (m.map (fun p => if p.1 = k then (k, v) else p)) q = dlookup m q := by
  induction m with
  | nil => rfl
  | cons p m ih =>
    rw [List.map_cons]
    by_cases hp : p.1 = k
    · rw [if_pos hp, dlookup, dlookup]
      have h1 : ¬ ((k, v).1 = q) := fun h => hq (by simpa using h.symm)
      have h2 : ¬ (p.1 = q) := by
        rw [hp]
        exact fun h => hq h.symm
      rw [if_neg h1, if_neg h2]
      exact ih
    · rw [if_neg hp, dlookup, dlookup]
      split
      · rfl
      · exact ih

theorem dlookup_dinsert (m : List (K × V)) (k : K) (v : V) (q : K) :
    dlookup (dinsert m k v) q = if q = k then some v else dlookup m q := by
  unfold dinsert
  split
  next hmem =>
    by_cases hq : q = k
    · subst hq
      rw [if_pos rfl]
      induction m with
      | nil => simp at hmem
      | cons p m ih =>
        by_cases hp : p.1 = q
        · rw [List.map_cons, if_pos hp, dlookup, if_pos rfl]
        · rw [List.map_cons, if_neg hp, dlookup, if_neg hp]
          exact ih (by
            simp only [List.map_cons, List.mem_cons] at hmem
            rcases hmem with h | h
            · exact absurd h.symm hp
            · exact h)
    · rw [if_neg hq]
      exact dlookup_map_replace m k q v hq
  next hmem =>
    induction m with
    | nil =>
      rw [List.nil_append]
      by_cases hq : q = k
      · subst hq
        simp [dlookup]
      · simp [dlookup, hq, Ne.symm hq]
    | cons p m ih =>
      rw [List.cons_append, dlookup, dlookup]
      by_cases hpq : p.1 = q
      · rw [if_pos hpq, if_pos hpq]
        rw [if_neg (fun h : q = k => hmem (by rw [← h, ← hpq]; simp))]
      · rw [if_neg hpq, if_neg hpq]
        exact ih (fun h => hmem (by
          rcases List.mem_map.mp h with ⟨pp, hpp, hfst⟩
          exact List.mem_map.mpr ⟨pp, List.mem_cons_of_mem p hpp, hfst⟩))

theorem dlookup_eq_none_of_not_mem (m : List (K × V)) (q : K)
    (h : q ∉ m.map Prod.fst) : dlookup m q = none := by
  induction m with
  | nil => rfl
  | cons p m ih =>
    rw [dlookup]
    rw [if_neg (fun hp => h (by simp [← hp]))]
    exact ih (fun hq => h (by simp [List.mem_cons]; right; simpa using hq))

theorem keys_nodup_dinsert (m : List (K × V)) (k : K) (v : V)
    (h : (m.map Prod.fst).Nodup) : ((dinsert m k v).map Prod.fst).Nodup := by
  rw [keys_dinsert]
  split
  · exact h
  next hmem => simp [List.nodup_append, h, hmem]

theorem dupdate_append_single (m ps : List (K × V)) (p : K × V) :
    dupdate m (ps ++ [p]) = dinsert (dupdate m ps) p.1 p.2 := by
  unfold dupdate
  rw [List.foldl_append]
  rfl

theorem dlookup_dupdate (m ps : List (K × V)) (q : K) :
    dlookup (dupdate m ps) q =
      match dlookup ps.reverse q with
      | some v => some v
      | none => dlookup m q := by
  induction ps using List.reverseRecOn generalizing m with
  | nil => rfl
  | append_singleton ps p ih =>
    rw [dupdate_append_single, dlookup_dinsert, List.reverse_append]
    simp only [List.reverse_singleton, List.singleton_append, dlookup]
    by_cases hq : q = p.1
    · rw [if_pos hq, if_pos hq.symm]
    · rw [if_neg hq, if_neg (fun h => hq h.symm)]
      exact ih m

theorem keys_subset_dinsert (m : List (K × V)) (k : K) (v : V) (q : K)
    (h : q ∈ m.map Prod.fst) : q ∈ (dinsert m k v).map Prod.fst := by
  rw [keys_dinsert]
  split
  · exact h
  · exact List.mem_append_left _ h

theorem key_mem_dinsert (m : List (K × V)) (k : K) (v : V) :
    k ∈ (dinsert m k v).map Prod.fst := by
  rw [keys_dinsert]
  split
  next h => exact h
  next h => exact List.mem_append_right _ (List.mem_singleton_self k)

theorem keys_subset_dupdate (m ps : List (K × V)) (q : K)
    (h : q ∈ m.map Prod.fst) : q ∈ (dupdate m ps).map Prod.fst := by
  induction ps using List.reverseRecOn with
  | nil => exact h
  | append_singleton ps p ih =>
    rw [dupdate_append_single]
    exact keys_subset_dinsert _ _ _ _ ih

theorem keys_ps_mem_dupdate (m ps : List (K × V)) (p : K × V) (hp : p ∈ ps) :
    p.1 ∈ (dupdate m ps).map Prod.fst := by
  induction ps using List.reverseRecOn with
  | nil => simp at hp
  | append_singleton ps q ih =>
    rw [dupdate_append_single]
    rcases List.mem_append.mp hp with h | h
    · exact keys_subset_dinsert _ _ _ _ (ih h)
    · rw [List.mem_singleton.mp h]
      exact key_mem_dinsert _ _ _

theorem keys_dupdate_of_subset (m ps : List (K × V))
    (h : ∀ p ∈ ps, p.1 ∈ m.map Prod.fst) :
    (dupdate m ps).map Prod.fst = m.map Prod.fst := by
  induction ps generalizing m with
  | nil => rfl
  | cons p ps ih =>
    show (dupdate (dinsert m p.1 p.2) ps).map Prod.fst = _
    have hk : (dinsert m p.1 p.2).map Prod.fst = m.map Prod.fst := by
      rw [keys_dinsert, if_pos (h p (List.mem_cons_self p ps))]
    rw [ih (dinsert m p.1 p.2) (fun q hq => by
      rw [hk]
      exact h q (List.mem_cons_of_mem p hq))]
    exact hk

theorem keys_nodup_dupdate (m ps : List (K × V))
    (h : (m.map Prod.fst).Nodup) : ((dupdate m ps).map Prod.fst).Nodup := by
  induction ps generalizing m with
  | nil => exact h
  | cons p ps ih =>
    exact ih (dinsert m p.1 p.2) (keys_nodup_dinsert m p.1 p.2 h)

theorem dict_ext (l₁ : List (K × V)) :
    ∀ l₂ : List (K × V), (l₁.map Prod.fst).Nodup → (l₂.map Prod.fst).Nodup →
      l₁.map Prod.fst = l₂.map Prod.fst →
      (∀ q, dlookup l₁ q = dlookup l₂ q) → l₁ = l₂ := by
  induction l₁ with
  | nil =>
    intro l₂ _ _ hkeys _
    have h2 : List.map Prod.fst l₂ = [] := by
      rw [← hkeys]
      rfl
    cases l₂ with
    | nil => rfl
    | cons p t => simp at h2
  | cons p t₁ ih =>
    intro l₂ h₁ h₂ hkeys hlook
    cases l₂ with
    | nil => simp at hkeys
    | cons p₂ t₂ =>
      simp only [List.map_cons, List.cons.injEq] at hkeys
      obtain ⟨hk, hkt⟩ := hkeys
      have hv : p.2 = p₂.2 := by
        have := hlook p.1
        rw [dlookup, dlookup, if_pos rfl, if_pos hk.symm] at this
        exact Option.some.injEq _ _ ▸ this
      have hn₁ : p.1 ∉ t₁.map Prod.fst := by
        simp only [List.map_cons, List.nodup_cons] at h₁
        exact h₁.1
      have hn₂ : p₂.1 ∉ t₂.map Prod.fst := by
        simp only [List.map_cons, List.nodup_cons] at h₂
        exact h₂.1
      have htails : t₁ = t₂ := by
        refine ih t₂ ?_ ?_ hkt ?_
        · simp only [List.map_cons, List.nodup_cons] at h₁
          exact h₁.2
        · simp only [List.map_cons, List.nodup_cons] at h₂
          exact h₂.2
        · intro q
          by_cases hq : q = p.1
          · subst hq
            rw [dlookup_eq_none_of_not_mem t₁ _ hn₁,
              dlookup_eq_none_of_not_mem t₂ _ (hk ▸ hn₂)]
          · have := hlook q
            rw [dlookup, dlookup, if_neg (fun h => hq h.symm),
              if_neg (fun h => hq (hk ▸ h.symm))] at this
            exact this
      have hp : p = p₂ := by
        obtain ⟨a, b⟩ := p
        obtain ⟨a₂, b₂⟩ := p₂
        simp only at hk hv
        rw [hk, hv]
      rw [hp, htails]

theorem dupdate_idem (m ps : List (K × V)) (h : (m.map Prod.fst).Nodup) :
    dupdate (dupdate m ps) ps = dupdate m ps := by
  have hsub : ∀ p ∈ ps, p.1 ∈ (dupdate m ps).map Prod.fst :=
    fun p hp => keys_ps_mem_dupdate m ps p hp
  refine dict_ext _ _ ?_ ?_ ?_ ?_
  · exact keys_nodup_dupdate _ _ (keys_nodup_dupdate _ _ h)
  · exact keys_nodup_dupdate _ _ h
  · exact keys_dupdate_of_subset _ _ hsub
  · intro q
    rw [dlookup_dupdate, dlookup_dupdate (m := m)]
    cases hc : dlookup ps.reverse q with
    | none => simp
    | some v => simp

theorem dupdate_acc_append (l : List (K × V)) :
    ∀ acc : List (K × V), (∀ p ∈ l, p.1 ∉ acc.map Prod.fst) →
      (l.map Prod.fst).Nodup → dupdate acc l = acc ++ l := by
  induction l with
  | nil => intro acc _ _; simp [dupdate]
  | cons p l ih =>
    intro acc hdisj hnodup
    show dupdate (dinsert acc p.1 p.2) l = acc ++ p :: l
    have hins : dinsert acc p.1 p.2 = acc ++ [p] := by
      unfold dinsert
      rw [if_neg (hdisj p (List.mem_cons_self p l))]
    rw [hins]
    rw [ih (acc ++ [p]) ?_ ?_]
    · simp
    · intro q hq hctr
      rw [List.map_append] at hctr
      rcases List.mem_append.mp hctr with hc | hc
      · exact hdisj q (List.mem_cons_of_mem p hq) hc
      · have hq1 : q.1 = p.1 := by simpa using hc
        simp only [List.map_cons, List.nodup_cons] at hnodup
        exact hnodup.1 (hq1 ▸ List.mem_map_of_mem Prod.fst hq)
    · simp only [List.map_cons, List.nodup_cons] at hnodup
      exact hnodup.2

theorem dictOf_self (l : List (K × V)) (h : (l.map Prod.fst).Nodup) :
    dictOf l = l := by
  unfold dictOf
  rw [dupdate_acc_append l [] (by simp) h]
  rfl

theorem mem_dinsert (m : List (K × V)) (k : K) (v : V) (x : K × V)
    (h : x ∈ dinsert m k v) : x ∈ m ∨ x = (k, v) := by
  unfold dinsert at h
  split at h
  · obtain ⟨p, hp, hx⟩ := List.mem_map.mp h
    by_cases hpk : p.1 = k
    · rw [if_pos hpk] at hx
      exact Or.inr hx.symm
    · rw [if_neg hpk] at hx
      exact Or.inl (hx ▸ hp)
  · rcases List.mem_append.mp h with h | h
    · exact Or.inl h
    · exact Or.inr (List.mem_singleton.mp h)

theorem mem_dupdate (m ps : List (K × V)) (x : K × V)
    (h : x ∈ dupdate m ps) : x ∈ m ∨ x ∈ ps := by
  induction ps using List.reverseRecOn with
  | nil => exact Or.inl h
  | append_singleton ps p ih =>
    rw [dupdate_append_single] at h
    rcases mem_dinsert _ _ _ _ h with h | h
    · rcases ih h with h | h
      · exact Or.inl h
      · exact Or.inr (List.mem_append_left _ h)
    · right
      rw [h]
      exact List.mem_append_right _ (by simp)

end Dict

/-! ## Claim C5 — main theorem -/

theorem hexVal_lt16 (c : Char) : hexVal c < 16 := by
  unfold hexVal
  split
  next h => omega
  next =>
    split
    next h => omega
    next =>
      split
      next h => omega
      next => omega

theorem unquote_plus_pct_invalid (a b : Char) (rest2 : List Char)
    (h : (isHexDigitCh a && isHexDigitCh b) = false) :
    unquote_plus ('%' :: a :: b :: rest2) = '%' :: unquote_plus (a :: b :: rest2) := by
  rw [unquote_plus.eq_def]
  simp [h]

theorem unquote_plus_pct_nil : unquote_plus ['%'] = ['%'] := by
  rw [unquote_plus.eq_def]
  simp [unquote_plus_nil]

theorem unquote_plus_pct_one (a : Char) :
    unquote_plus ['%', a] = '%' :: unquote_plus [a] := by
  rw [unquote_plus.eq_def]
  simp

theorem unquote_plus_chars_aux :
    ∀ (n : ℕ) (l : List Char), l.length ≤ n → (∀ c ∈ l, c.toNat < 128) →
      ∀ c ∈ unquote_plus l, c.toNat < 256 := by
  intro n
  induction n with
  | zero =>
    intro l hl _ c hc
    have hnil : l = [] := List.length_eq_zero.mp (by omega)
    subst hnil
    rw [unquote_plus_nil] at hc
    simp at hc
  | succ n ih =>
    intro l hl h c hc
    match l with
    | [] =>
      rw [unquote_plus_nil] at hc
      simp at hc
    | d :: rest =>
      by_cases hd1 : d = '+'
      · subst hd1
        rw [unquote_plus_plus] at hc
        rcases List.mem_cons.mp hc with rfl | hc
        · decide
        · exact ih rest (by simp at hl; omega)
            (fun e he => h e (List.mem_cons_of_mem _ he)) c hc
      · by_cases hd2 : d = '%'
        · subst hd2
          match rest with
          | [] =>
            rw [unquote_plus_pct_nil] at hc
            rcases List.mem_singleton.mp hc with rfl
            decide
          | [a] =>
            rw [unquote_plus_pct_one] at hc
            rcases List.mem_cons.mp hc with rfl | hc
            · decide
            · exact ih [a] (by simp at hl ⊢; omega)
                (fun e he => h e (List.mem_cons_of_mem _ he)) c hc
          | a :: b :: rest2 =>
            by_cases hhex : (isHexDigitCh a && isHexDigitCh b) = true
            · obtain ⟨ha, hb⟩ := Bool.and_eq_true_iff.mp hhex
              rw [unquote_plus_pct a b rest2 ha hb] at hc
              rcases List.mem_cons.mp hc with rfl | hc
              · have hlt : 16 * hexVal a + hexVal b < 256 := by
                  have := hexVal_lt16 a
                  have := hexVal_lt16 b
                  omega
                rw [char_toNat_ofNat _ (by omega)]
                exact hlt
              · exact ih rest2 (by simp at hl ⊢; omega)
                  (fun e he => h e (by simp [he])) c hc
            · rw [unquote_plus_pct_invalid a b rest2 (by simpa using hhex)] at hc
              rcases List.mem_cons.mp hc with rfl | hc
              · decide
              · exact ih (a :: b :: rest2) (by simp at hl ⊢; omega)
                  (fun e he => h e (List.mem_cons_of_mem _ he)) c hc
        · rw [unquote_plus_other d rest hd1 hd2] at hc
          rcases List.mem_cons.mp hc with rfl | hc
          · have := h c (List.mem_cons_self c rest)
            omega
          · exact ih rest (by simp at hl; omega)
              (fun e he => h e (List.mem_cons_of_mem _ he)) c hc

theorem unquote_plus_chars (l : List Char) (h : ∀ c ∈ l, c.toNat < 128) :
    ∀ c ∈ unquote_plus l, c.toNat < 256 :=
  unquote_plus_chars_aux l.length l le_rfl h

theorem mem_of_mem_splitOnP (p : Char → Bool) (l : List Char) :
    ∀ piece ∈ splitOnP p l, ∀ c ∈ piece, c ∈ l := by
  induction l with
  | nil =>
    intro piece hp c hc
    simp [splitOnP] at hp
    subst hp
    simp at hc
  | cons x rest ih =>
    intro piece hp c hc
    rw [splitOnP] at hp
    split at hp
    · rcases List.mem_cons.mp hp with h | h
      · subst h
        simp at hc
      · exact List.mem_cons_of_mem x (ih piece h c hc)
    · rcases hsp : splitOnP p rest with _ | ⟨h0, t0⟩
      · exact absurd hsp (splitOnP_ne_nil p rest)
      · rw [hsp] at hp
        rcases List.mem_cons.mp hp with h | h
        · subst h
          rcases List.mem_cons.mp hc with h | h
          · subst h
            exact List.mem_cons_self c rest
          · exact List.mem_cons_of_mem x
              (ih h0 (hsp ▸ List.mem_cons_self h0 t0) c h)
        · exact List.mem_cons_of_mem x
            (ih piece (hsp ▸ List.mem_cons_of_mem h0 h) c hc)

theorem splitFirstEq_chars (f : List Char) :
    ∀ q, splitFirstEq f = some q →
      (∀ c ∈ q.1, c ∈ f) ∧ (∀ c ∈ q.2, c ∈ f) := by
  induction f with
  | nil =>
    intro q hq
    simp [splitFirstEq] at hq
  | cons x rest ih =>
    intro q hq
    rw [splitFirstEq] at hq
    split at hq
    · simp only [Option.some.injEq] at hq
      subst hq
      exact ⟨fun c hc => by simp at hc,
        fun c hc => List.mem_cons_of_mem x hc⟩
    · rcases hsp : splitFirstEq rest with _ | q0
      · rw [hsp] at hq
        simp at hq
      · rw [hsp] at hq
        have hq3 : (x :: q0.1, q0.2) = q := Option.some.inj hq
        subst hq3
        obtain ⟨h1, h2⟩ := ih q0 hsp
        refine ⟨fun c hc => ?_, fun c hc => List.mem_cons_of_mem x (h2 c hc)⟩
        rcases List.mem_cons.mp hc with h | h
        · subst h
          exact List.mem_cons_self c rest
        · exact List.mem_cons_of_mem x (h1 c h)

theorem parse_qsl_chars (qs : List Char) (h : ∀ c ∈ qs, c.toNat < 128) :
    ∀ p ∈ parse_qsl qs,
      (∀ c ∈ p.1, c.toNat < 256) ∧ (∀ c ∈ p.2, c.toNat < 256) := by
  intro p hp
  unfold parse_qsl at hp
  obtain ⟨f, hf, hpf⟩ := List.mem_filterMap.mp hp
  have hf128 : ∀ c ∈ f, c.toNat < 128 :=
    fun c hc => h c (mem_of_mem_splitOnP _ qs f hf c hc)
  split at hpf
  · simp at hpf
  · rcases hsp : splitFirstEq f with _ | q0 <;> rw [hsp] at hpf
    · simp only [Option.some.injEq] at hpf
      subst hpf
      refine ⟨unquote_plus_chars f hf128, ?_⟩
      rw [unquote_plus_nil]
      intro c hc
      simp at hc
    · simp only [Option.some.injEq] at hpf
      subst hpf
      obtain ⟨h1, h2⟩ := splitFirstEq_chars f q0 hsp
      exact ⟨unquote_plus_chars q0.1 (fun c hc => hf128 c (h1 c hc)),
        unquote_plus_chars q0.2 (fun c hc => hf128 c (h2 c hc))⟩

/-- C5: re-parsing the query of the URL built by `add_or_update_query` gives
exactly the original query mapping (later duplicates overwriting) updated with
the given params, and applying the builder twice with the same params is a
fixed point. (Characters restricted to ASCII, where the single-byte model of
percent-encoding is faithful.) -/
theorem add_or_update_query_spec :
    ∀ (u : UrlParts) (ps : List (List Char × List Char)),
      (∀ c ∈ u.query, c.toNat < 128) →
      (∀ p ∈ ps, (∀ c ∈ p.1, c.toNat < 128) ∧ (∀ c ∈ p.2, c.toNat < 128)) →
      parse_qsl (add_or_update_query u ps).query =
        dupdate (dictOf (parse_qsl u.query)) ps ∧
      add_or_update_query (add_or_update_query u ps) ps =
        add_or_update_query u ps := by
  intro u ps hq hps
  have hM : ∀ p ∈ dupdate (dictOf (parse_qsl u.query)) ps,
      (∀ c ∈ p.1, c.toNat < 256) ∧ (∀ c ∈ p.2, c.toNat < 256) := by
    intro p hp
    rcases mem_dupdate _ _ _ hp with h1 | h2
    · rcases mem_dupdate _ _ _ h1 with h0 | h3
      · simp at h0
      · exact parse_qsl_chars u.query hq p h3
    · obtain ⟨a, b⟩ := hps p h2
      exact ⟨fun c hc => by have := a c hc; omega,
        fun c hc => by have := b c hc; omega⟩
  have hnodup0 : ((dictOf (parse_qsl u.query)).map Prod.fst).Nodup :=
    keys_nodup_dupdate ([] : List (List Char × List Char)) _ (by simp)
  have hnodupM : ((dupdate (dictOf (parse_qsl u.query)) ps).map Prod.fst).Nodup :=
    keys_nodup_dupdate _ _ hnodup0
  have hpart1 : parse_qsl (add_or_update_query u ps).query =
      dupdate (dictOf (parse_qsl u.query)) ps := by
    show parse_qsl (urlencode (dupdate (dictOf (parse_qsl u.query)) ps)) = _
    exact parse_qsl_urlencode _ hM
  refine ⟨hpart1, ?_⟩
  have key : urlencode (dupdate (dictOf (parse_qsl
        (urlencode (dupdate (dictOf (parse_qsl u.query)) ps)))) ps) =
      urlencode (dupdate (dictOf (parse_qsl u.query)) ps) := by
    rw [parse_qsl_urlencode _ hM]
    rw [dictOf_self _ hnodupM]
    rw [dupdate_idem _ _ hnodup0]
  show ({ u with query := urlencode (dupdate (dictOf (parse_qsl
      (urlencode (dupdate (dictOf (parse_qsl u.query)) ps)))) ps) } : UrlParts) =
    { u with query := urlencode (dupdate (dictOf (parse_qsl u.query)) ps) }
  rw [key]

theorem add_or_update_query_spec_witness :
    parse_qsl (add_or_update_query
        ⟨"https".data, "www.fantasypros.com".data, "/nfl/projections/rb.php".data,
          [], "week=draft&scoring=HALF&week=draft".data, []⟩
        [("csv".data, "1".data)]).query =
      dupdate (dictOf (parse_qsl "week=draft&scoring=HALF&week=draft".data))
        [("csv".data, "1".data)] ∧
    add_or_update_query (add_or_update_query
        ⟨"https".data, "www.fantasypros.com".data, "/nfl/projections/rb.php".data,
          [], "week=draft&scoring=HALF&week=draft".data, []⟩
        [("csv".data, "1".data)]) [("csv".data, "1".data)] =
      add_or_update_query
        ⟨"https".data, "www.fantasypros.com".data, "/nfl/projections/rb.php".data,
          [], "week=draft&scoring=HALF&week=draft".data, []⟩
        [("csv".data, "1".data)] :=
  add_or_update_query_spec
    ⟨"https".data, "www.fantasypros.com".data, "/nfl/projections/rb.php".data,
      [], "week=draft&scoring=HALF&week=draft".data, []⟩
    [("csv".data, "1".data)]
    (by decide) (by decide)

end FpFetch
